import Mathlib

/-!
Verification of the LINQ-for-cpp pipeline engine (`include/Pipeline.hpp`,
the `Composer`-based variant).

The C++ code implements a pull-based pipeline: a chain of stages
(`Select`, `Where`, `Take`, `OrderBy`, plus the private source adapter
`Iterate`) linked by `previousFunction` pointers, owned by a `Composer`.
Each stage implements `unique_ptr<T> operator()(const bool &reset)`:
"pull one element, `reset` true exactly on the first pull of a run".

Shallow embedding used here:
* a chain is a `List (Stage T)`, head first (the head is `Composer::first`,
  the last list element is the tail, `Composer::last`); the upstream
  (`previousFunction`) of a stage is the next list element, and a null
  `previousFunction` is the end of the list;
* `unique_ptr<T>` results become `Option T`;
* calling `operator()` through a null `previousFunction` pointer
  (undefined behavior in C++) is modeled as the explicit outcome
  `Err.nullDeref`;
* the mutable per-stage run state (`Take::remaining`,
  `OrderBy::processed` / `OrderBy::results`, `Iterate`'s cursor) is part
  of the `Stage` value, and a pull returns the updated chain;
* the `do { } while` / `while (true)` loops are given an explicit fuel
  argument; exhausting fuel is the distinguished outcome `Err.outOfFuel`,
  proved unreachable for sufficiently large fuel (claim C10);
* `std::sort(results.begin(), results.end(), comparer)` is modeled by
  `List.insertionSort` over the relation `fun a b => comparer b a = false`
  (i.e. "not strictly greater"): `std::sort` guarantees exactly that the
  result is a permutation sorted so that no element is `comparer`-less
  than an earlier one, which `insertionSort` over that relation provides;
* `size_t` quantities (`Take::remaining`, `Take::_capacity`) become `Nat`
  (matching "capacity is an unsigned quantity").
-/

namespace Pipeline

/-- One pipeline stage together with its current run state.  Constructors
mirror the C++ classes `Select`, `Where`, `Take`, `OrderBy` and the
private source adapter `Composer::Iterate`.  The upstream pointer is not
stored here; it is given by the position of the stage in a chain list. -/
inductive Stage (T : Type) where
  | Select (updater : T → T)
  | Where (checker : T → Bool)
  | Take (remaining capacity : Nat)
  | OrderBy (comparer : T → T → Bool) (processed : Bool) (results : List T)
  | Iterate (elems : List T)

/-- Outcomes other than a value: `nullDeref` models invoking a member
function through a null `previousFunction`/`first`/`last` pointer
(undefined behavior in the C++ source); `outOfFuel` is the artifact of
the explicit loop fuel. -/
inductive Err where
  | nullDeref
  | outOfFuel
deriving DecidableEq

/-- The relation "not strictly greater under the comparer", i.e. the
postcondition order of `std::sort(..., comparer)`. -/
def sortRel {T : Type} (comparer : T → T → Bool) : T → T → Prop :=
  fun a b => comparer b a = false

instance {T : Type} (comparer : T → T → Bool) : DecidableRel (sortRel comparer) :=
  fun a b => instDecidableEqBool (comparer b a) false

/-- Model of `std::sort(results.begin(), results.end(), comparer)`. -/
def stdSort {T : Type} (comparer : T → T → Bool) (l : List T) : List T :=
  l.insertionSort (sortRel comparer)

mutual

/-- One pull of the head stage of a chain: the body of each
`operator()(const bool &reset)` in `Pipeline.hpp`.  Returns the produced
element (`none` = end of sequence, the null `unique_ptr`) and the chain
with updated run state.  Pulling an empty chain models calling
`previousFunction->operator()` through a null pointer. -/
def pullF {T : Type} : Nat → List (Stage T) → Bool → Except Err (Option T × List (Stage T))
  | 0, _, _ => .error .outOfFuel
  | _ + 1, [], _ => .error .nullDeref
  | n + 1, .Select f :: rest, reset => do
      let (o, rest') ← pullF n rest reset
      .ok (o.map f, .Select f :: rest')
  | n + 1, .Where p :: rest, reset => do
      let (o, rest') ← whereLoopF n p rest reset
      .ok (o, .Where p :: rest')
  | n + 1, .Take remaining cap :: rest, reset =>
      let r1 := if reset then cap else remaining
      if r1 = 0 then .ok (none, .Take r1 cap :: rest)
      else do
        let (o, rest') ← pullF n rest reset
        match o with
        | none => .ok (none, .Take 0 cap :: rest')
        | some x => .ok (some x, .Take (r1 - 1) cap :: rest')
  | n + 1, .OrderBy cmp processed results :: rest, reset =>
      let processed1 := if reset then false else processed
      let results1 := if reset then [] else results
      if processed1 then
        match results1 with
        | [] => .ok (none, .OrderBy cmp processed1 [] :: rest)
        | x :: xs => .ok (some x, .OrderBy cmp processed1 xs :: rest)
      else do
        let (drained, rest') ← collectF n rest reset
        match stdSort cmp (results1 ++ drained) with
        | [] => .ok (none, .OrderBy cmp processed1 [] :: rest')
        | x :: xs => .ok (some x, .OrderBy cmp processed1 xs :: rest')
  | _ + 1, .Iterate elems :: rest, _ =>
      match elems with
      | [] => .ok (none, .Iterate [] :: rest)
      | x :: xs => .ok (some x, .Iterate xs :: rest)

/-- The `do { result = previousFunction(needReset); needReset = false; }
while (result != nullptr && !checker(*result))` loop of
`Where::operator()`. -/
def whereLoopF {T : Type} : Nat → (T → Bool) → List (Stage T) → Bool → Except Err (Option T × List (Stage T))
  | 0, _, _, _ => .error .outOfFuel
  | n + 1, p, rest, needReset => do
      let (o, rest') ← pullF n rest needReset
      match o with
      | none => .ok (none, rest')
      | some x => if p x then .ok (some x, rest') else whereLoopF n p rest' false

/-- The pull-until-null collection loop, used both by
`Composer::processAll` and (with the drained elements appended to
`OrderBy::results`) by the drain loop in `OrderBy::operator()` — the two
loops in the source are textually identical. -/
def collectF {T : Type} : Nat → List (Stage T) → Bool → Except Err (List T × List (Stage T))
  | 0, _, _ => .error .outOfFuel
  | n + 1, c, reset => do
      let (o, c') ← pullF n c reset
      match o with
      | none => .ok ([], c')
      | some x => do
          let (l, c'') ← collectF n c' false
          .ok (x :: l, c'')

end

/-- `Composer<T>`: owner of a stage chain.  `chain = []` models
`first = last = nullptr` (the state after `Composer()` or `clear()`). -/
structure Composer (T : Type) where
  chain : List (Stage T)

/-- `Composer()` / `Composer::clear()`. -/
def Composer.empty (T : Type) : Composer T := ⟨[]⟩

/-- `Stage` part of `deepCopy()`: each stage's `deepCopy` reconstructs the
stage from its configuration only — `Take`'s copy restarts `remaining` at
`_capacity`, `OrderBy`'s copy has `processed = false` and empty `results`,
`Select`/`Where` keep their callable, and `Iterate::deepCopy` copies the
cursor as is. -/
def Stage.deepCopy {T : Type} : Stage T → Stage T
  | .Select f => .Select f
  | .Where p => .Where p
  | .Take _ cap => .Take cap cap
  | .OrderBy cmp _ _ => .OrderBy cmp false []
  | .Iterate elems => .Iterate elems

/-- `Composer<T>::deepCopy`: clone every stage along the
`previousFunction` links (the copy constructor and `operator=` of
`Composer` delegate to this). -/
def deepCopyChain {T : Type} (c : List (Stage T)) : List (Stage T) :=
  c.map Stage.deepCopy

/-- `Composer(const Composer&)` / `Composer::operator=`. -/
def Composer.copy {T : Type} (co : Composer T) : Composer T :=
  ⟨deepCopyChain co.chain⟩

/-- `Composer::append(F func)` for a single fresh stage (the path taken by
the `Select`/`Take`/`OrderBy`/`Where` facade methods, which construct the
stage and move it in): the new stage's upstream becomes the old head and
the new stage becomes the head. -/
def Composer.append {T : Type} (co : Composer T) (s : Stage T) : Composer T :=
  ⟨s :: co.chain⟩

/-- `Composer::append(F func)` when the appended stage is itself a
`Composer` (as in `com.append(com)` in `main.cpp`): pass-by-value invokes
the `Composer` copy constructor, i.e. `deepCopy`, and
`temp->setPreviousFunction(first)` links the copy's tail to the old head.
The nested composer node delegates its pulls to its own head, so the
resulting chain is flattened here. -/
def Composer.appendComposer {T : Type} (a b : Composer T) : Composer T :=
  ⟨deepCopyChain b.chain ++ a.chain⟩

/-- Facade `Composer::Select(...)`. -/
def Composer.select {T : Type} (co : Composer T) (f : T → T) : Composer T :=
  co.append (.Select f)

/-- Facade `Composer::Where(...)`. -/
def Composer.filter {T : Type} (co : Composer T) (p : T → Bool) : Composer T :=
  co.append (.Where p)

/-- Facade `Composer::Take(...)`: a fresh `Take` has
`remaining = capacity`. -/
def Composer.take {T : Type} (co : Composer T) (cap : Nat) : Composer T :=
  co.append (.Take cap cap)

/-- Facade `Composer::OrderBy(...)`: a fresh `OrderBy` has
`processed = false` and empty `results`. -/
def Composer.orderBy {T : Type} (co : Composer T) (cmp : T → T → Bool) : Composer T :=
  co.append (.OrderBy cmp false [])

/-- `Composer::ToList` → `preprocess` → `processAll`: saves
`base = last->getPreviousFunction()` (null for a standalone composer),
attaches a fresh `Iterate` source over the input as the tail's upstream,
runs the collection loop from the head with `reset` true on the first
pull only, then restores `base`, detaching the temporary source.  On an
empty composer `last` is null and `last->getPreviousFunction()`
dereferences a null pointer. -/
def toListF {T : Type} (n : Nat) (co : Composer T) (input : List T) :
    Except Err (List T × Composer T) :=
  match co.chain with
  | [] => .error .nullDeref
  | _ :: _ => do
      let (l, c') ← collectF n (co.chain ++ [.Iterate input]) true
      .ok (l, ⟨c'.take co.chain.length⟩)

/-- Materialization results only (the `vector<T>` the caller receives). -/
def toListOutF {T : Type} (n : Nat) (co : Composer T) (input : List T) :
    Except Err (List T) :=
  (toListF n co input).map Prod.fst

/-- The demo chain of `src/main.cpp`: `com.Select(addOne).Select(square)
.Select(subtract10).Where(greater5).Take(5).OrderBy(comparer)
.Take(2).OrderBy(less<int>())`.  The chain list is head-first, so the
head is the last stage appended (the ascending `OrderBy`). -/
def demoComposer : Composer Int :=
  ((((((((Composer.empty Int).select (fun x => x + 1)).select (fun x => x * x)).select
      (fun x => x - 10)).filter (fun x => decide (5 < x))).take 5).orderBy
      (fun x y => decide (y < x))).take 2).orderBy (fun x y => decide (x < y))

/-- The demo input `{1, 2, 3, 4, 5, 6, 7, 8, 9, 10}`. -/
def demoInput : List Int := [1, 2, 3, 4, 5, 6, 7, 8, 9, 10]

/-! One-step unfolding equations for the three mutually recursive
functions.  All subsequent proofs rewrite with these instead of unfolding
the definitions, which keeps recursive occurrences folded. -/

theorem errNe {α β : Type} {e : Err}
    (h : (Except.error e : Except Err α) ≠ Except.error Err.outOfFuel) :
    (Except.error e : Except Err β) ≠ Except.error Err.outOfFuel :=
  fun hx => h (congrArg Except.error (Except.error.inj hx))

theorem except_bind_error {A B : Type} (e : Err) (f : A → Except Err B) :
    (Except.error e : Except Err A).bind f = .error e := rfl

theorem except_bind_ok {A B : Type} (a : A) (f : A → Except Err B) :
    (Except.ok a : Except Err A).bind f = f a := rfl

theorem pairFst {A B : Type} {a c : A} {b d : B} (h : (a, b) = (c, d)) : a = c :=
  congrArg Prod.fst h

theorem pairSnd {A B : Type} {a c : A} {b d : B} (h : (a, b) = (c, d)) : b = d :=
  congrArg Prod.snd h

theorem pullF_nil {T : Type} (n : Nat) (r : Bool) :
    pullF (n + 1) ([] : List (Stage T)) r = .error .nullDeref := rfl

theorem pullF_select {T : Type} (n : Nat) (f : T → T) (rest : List (Stage T)) (r : Bool) :
    pullF (n + 1) (.Select f :: rest) r =
      match pullF n rest r with
      | .error e => .error e
      | .ok (o, rest') => .ok (o.map f, .Select f :: rest') := by
  show (pullF n rest r).bind _ = _
  cases h : pullF n rest r with
  | error e => rfl
  | ok v => obtain ⟨o, c'⟩ := v; rfl

theorem pullF_where {T : Type} (n : Nat) (p : T → Bool) (rest : List (Stage T)) (r : Bool) :
    pullF (n + 1) (.Where p :: rest) r =
      match whereLoopF n p rest r with
      | .error e => .error e
      | .ok (o, rest') => .ok (o, .Where p :: rest') := by
  show (whereLoopF n p rest r).bind _ = _
  cases h : whereLoopF n p rest r with
  | error e => rfl
  | ok v => obtain ⟨o, c'⟩ := v; rfl

theorem pullF_take {T : Type} (n : Nat) (rem cap : Nat) (rest : List (Stage T)) (r : Bool) :
    pullF (n + 1) (.Take rem cap :: rest) r =
      if (if r then cap else rem) = 0 then
        .ok (none, .Take (if r then cap else rem) cap :: rest)
      else
        match pullF n rest r with
        | .error e => .error e
        | .ok (none, rest') => .ok (none, .Take 0 cap :: rest')
        | .ok (some x, rest') =>
            .ok (some x, .Take ((if r then cap else rem) - 1) cap :: rest') := by
  by_cases h0 : (if r then cap else rem) = 0
  · show (if _ then _ else _) = _
    rw [if_pos h0, if_pos h0]
  · show (if _ then _ else _) = _
    rw [if_neg h0, if_neg h0]
    show (pullF n rest r).bind _ = _
    cases h : pullF n rest r with
    | error e => rfl
    | ok v =>
      obtain ⟨o, c'⟩ := v
      cases o with
      | none => rfl
      | some x => rfl

theorem pullF_orderBy {T : Type} (n : Nat) (cmp : T → T → Bool) (pr : Bool)
    (res0 : List T) (rest : List (Stage T)) (r : Bool) :
    pullF (n + 1) (.OrderBy cmp pr res0 :: rest) r =
      if (if r then false else pr) then
        match (if r then [] else res0) with
        | [] => .ok (none, .OrderBy cmp (if r then false else pr) [] :: rest)
        | x :: xs => .ok (some x, .OrderBy cmp (if r then false else pr) xs :: rest)
      else
        match collectF n rest r with
        | .error e => .error e
        | .ok (drained, rest') =>
            match stdSort cmp ((if r then [] else res0) ++ drained) with
            | [] => .ok (none, .OrderBy cmp (if r then false else pr) [] :: rest')
            | x :: xs =>
                .ok (some x, .OrderBy cmp (if r then false else pr) xs :: rest') := by
  by_cases hpr : (if r then false else pr) = true
  · show (if _ then _ else _) = _
    rw [if_pos hpr, if_pos hpr]
  · show (if _ then _ else _) = _
    rw [if_neg hpr, if_neg hpr]
    show (collectF n rest r).bind _ = _
    cases h : collectF n rest r with
    | error e => rfl
    | ok v =>
      obtain ⟨drained, c'⟩ := v
      rfl

theorem pullF_iterate {T : Type} (n : Nat) (elems : List T) (rest : List (Stage T)) (r : Bool) :
    pullF (n + 1) (.Iterate elems :: rest) r =
      match elems with
      | [] => .ok (none, .Iterate [] :: rest)
      | x :: xs => .ok (some x, .Iterate xs :: rest) := rfl

theorem whereLoopF_succ {T : Type} (n : Nat) (p : T → Bool) (rest : List (Stage T)) (r : Bool) :
    whereLoopF (n + 1) p rest r =
      match pullF n rest r with
      | .error e => .error e
      | .ok (none, rest') => .ok (none, rest')
      | .ok (some x, rest') =>
          if p x then .ok (some x, rest') else whereLoopF n p rest' false := by
  show (pullF n rest r).bind _ = _
  cases h : pullF n rest r with
  | error e => rfl
  | ok v =>
    obtain ⟨o, c'⟩ := v
    cases o with
    | none => rfl
    | some x => rfl

theorem collectF_succ {T : Type} (n : Nat) (c : List (Stage T)) (r : Bool) :
    collectF (n + 1) c r =
      match pullF n c r with
      | .error e => .error e
      | .ok (none, c') => .ok ([], c')
      | .ok (some x, c') =>
          match collectF n c' false with
          | .error e => .error e
          | .ok (l, c'') => .ok (x :: l, c'') := by
  show (pullF n c r).bind _ = _
  cases h : pullF n c r with
  | error e => rfl
  | ok v =>
    obtain ⟨o, c'⟩ := v
    cases o with
    | none => rfl
    | some x =>
      show (collectF n c' false).bind _ = _
      dsimp only
      cases h2 : collectF n c' false with
      | error e => rfl
      | ok v2 => rfl

/-! Fuel stability: a result other than `Err.outOfFuel` is unchanged by
adding fuel.  All later claims quantify over fuel through this lemma. -/

theorem fuel_step_stable {T : Type} :
    ∀ n : Nat,
      (∀ (c : List (Stage T)) (r : Bool) (res : Except Err (Option T × List (Stage T))),
        pullF n c r = res → res ≠ .error .outOfFuel → pullF (n + 1) c r = res) ∧
      (∀ (p : T → Bool) (c : List (Stage T)) (r : Bool)
        (res : Except Err (Option T × List (Stage T))),
        whereLoopF n p c r = res → res ≠ .error .outOfFuel →
        whereLoopF (n + 1) p c r = res) ∧
      (∀ (c : List (Stage T)) (r : Bool) (res : Except Err (List T × List (Stage T))),
        collectF n c r = res → res ≠ .error .outOfFuel → collectF (n + 1) c r = res) := by
  intro n
  induction n with
  | zero =>
    refine ⟨?_, ?_, ?_⟩
    · intro c r res heq hres
      rw [show pullF 0 c r = .error .outOfFuel from rfl] at heq
      exact absurd heq.symm hres
    · intro p c r res heq hres
      rw [show whereLoopF 0 p c r = .error .outOfFuel from rfl] at heq
      exact absurd heq.symm hres
    · intro c r res heq hres
      rw [show collectF 0 c r = .error .outOfFuel from rfl] at heq
      exact absurd heq.symm hres
  | succ n ih =>
    obtain ⟨ihp, ihw, ihc⟩ := ih
    refine ⟨?_, ?_, ?_⟩
    · intro c r res heq hres
      match c with
      | [] => exact heq
      | .Select f :: rest =>
        rw [pullF_select] at heq ⊢
        split at heq
        next e hrec =>
          rw [ihp rest r _ hrec (errNe (by rw [← heq] at hres; exact hres))]
          exact heq
        next o c' hrec =>
          rw [ihp rest r _ hrec (by simp)]
          exact heq
      | .Where p :: rest =>
        rw [pullF_where] at heq ⊢
        split at heq
        next e hrec =>
          rw [ihw p rest r _ hrec (errNe (by rw [← heq] at hres; exact hres))]
          exact heq
        next o c' hrec =>
          rw [ihw p rest r _ hrec (by simp)]
          exact heq
      | .Take rem cap :: rest =>
        rw [pullF_take] at heq ⊢
        by_cases h0 : (if r then cap else rem) = 0
        · rw [if_pos h0] at heq ⊢
          exact heq
        · rw [if_neg h0] at heq ⊢
          split at heq
          next e hrec =>
            rw [ihp rest r _ hrec (errNe (by rw [← heq] at hres; exact hres))]
            exact heq
          next c' hrec =>
            rw [ihp rest r _ hrec (by simp)]
            exact heq
          next x c' hrec =>
            rw [ihp rest r _ hrec (by simp)]
            exact heq
      | .OrderBy cmp pr res0 :: rest =>
        rw [pullF_orderBy] at heq ⊢
        by_cases hpr : (if r then false else pr) = true
        · rw [if_pos hpr] at heq ⊢
          exact heq
        · rw [if_neg hpr] at heq ⊢
          split at heq
          next e hrec =>
            rw [ihc rest r _ hrec (errNe (by rw [← heq] at hres; exact hres))]
            exact heq
          next drained c' hrec =>
            rw [ihc rest r _ hrec (by simp)]
            exact heq
      | .Iterate elems :: rest => cases elems <;> exact heq
    · intro p c r res heq hres
      rw [whereLoopF_succ] at heq ⊢
      split at heq
      next e hrec =>
        rw [ihp c r _ hrec (by rw [← heq] at hres; exact hres)]
        exact heq
      next c' hrec =>
        rw [ihp c r _ hrec (by simp)]
        exact heq
      next x c' hrec =>
        rw [ihp c r _ hrec (by simp)]
        dsimp only
        by_cases hp : p x = true
        · rw [if_pos hp] at heq ⊢
          exact heq
        · rw [if_neg hp] at heq ⊢
          exact ihw p c' false res heq hres
    · intro c r res heq hres
      rw [collectF_succ] at heq ⊢
      split at heq
      next e hrec =>
        rw [ihp c r _ hrec (errNe (by rw [← heq] at hres; exact hres))]
        exact heq
      next c' hrec =>
        rw [ihp c r _ hrec (by simp)]
        exact heq
      next x c' hrec =>
        rw [ihp c r _ hrec (by simp)]
        dsimp only
        split at heq
        next e hrec2 =>
          rw [ihc c' false _ hrec2 (by rw [← heq] at hres; exact hres)]
          exact heq
        next l c'' hrec2 =>
          rw [ihc c' false _ hrec2 (by simp)]
          exact heq

theorem pullF_stable {T : Type} {n m : Nat} {c : List (Stage T)} {r : Bool}
    (hle : n ≤ m) (h : pullF n c r ≠ .error .outOfFuel) :
    pullF m c r = pullF n c r := by
  induction hle with
  | refl => rfl
  | step hle ih => exact (fuel_step_stable _).1 c r _ ih h

theorem whereLoopF_stable {T : Type} {n m : Nat} {p : T → Bool}
    {c : List (Stage T)} {r : Bool}
    (hle : n ≤ m) (h : whereLoopF n p c r ≠ .error .outOfFuel) :
    whereLoopF m p c r = whereLoopF n p c r := by
  induction hle with
  | refl => rfl
  | step hle ih => exact (fuel_step_stable _).2.1 p c r _ ih h

theorem collectF_stable {T : Type} {n m : Nat} {c : List (Stage T)} {r : Bool}
    (hle : n ≤ m) (h : collectF n c r ≠ .error .outOfFuel) :
    collectF m c r = collectF n c r := by
  induction hle with
  | refl => rfl
  | step hle ih => exact (fuel_step_stable _).2.2 c r _ ih h

theorem toListF_stable {T : Type} {n m : Nat} {co : Composer T} {input : List T}
    (hle : n ≤ m) (h : toListF n co input ≠ .error .outOfFuel) :
    toListF m co input = toListF n co input := by
  match hc : co.chain with
  | [] => simp [toListF, hc]
  | s :: c =>
    simp only [toListF, hc, bind, Except.bind] at h ⊢
    cases hrec : collectF n (s :: c ++ [.Iterate input]) true with
    | error e =>
      have he : e ≠ .outOfFuel := by
        intro hee
        subst hee
        rw [hrec] at h
        exact h rfl
      rw [collectF_stable hle (by rw [hrec]; exact fun hx => he (Except.error.inj hx)), hrec]
    | ok v => rw [collectF_stable hle (by rw [hrec]; simp), hrec]

/-! Eventual results: a computation evaluates to a value if some fuel
suffices; by fuel stability the value is then unique. -/

/-- The pull of a chain eventually returns `v`. -/
def PullEv {T : Type} (c : List (Stage T)) (r : Bool) (v : Option T × List (Stage T)) : Prop :=
  ∃ n, pullF n c r = .ok v

/-- The collection loop over a chain eventually returns `v`. -/
def CollectEv {T : Type} (c : List (Stage T)) (r : Bool) (v : List T × List (Stage T)) : Prop :=
  ∃ n, collectF n c r = .ok v

/-- `ToList` on a composer eventually returns `v`. -/
def ToListEv {T : Type} (co : Composer T) (input : List T) (v : List T × Composer T) : Prop :=
  ∃ n, toListF n co input = .ok v

/-- The materialized output of `ToList` is eventually `l`. -/
def ToListOutEv {T : Type} (co : Composer T) (input : List T) (l : List T) : Prop :=
  ∃ n, toListOutF n co input = .ok l

theorem pullEv_det {T : Type} {c : List (Stage T)} {r : Bool} {v w : Option T × List (Stage T)}
    (hv : PullEv c r v) (hw : PullEv c r w) : v = w := by
  obtain ⟨n, hn⟩ := hv
  obtain ⟨m, hm⟩ := hw
  have h1 : pullF (max n m) c r = .ok v :=
    (pullF_stable (Nat.le_max_left n m) (by rw [hn]; simp)).trans hn
  have h2 : pullF (max n m) c r = .ok w :=
    (pullF_stable (Nat.le_max_right n m) (by rw [hm]; simp)).trans hm
  exact Except.ok.inj (h1 ▸ h2)

theorem collectEv_det {T : Type} {c : List (Stage T)} {r : Bool}
    {v w : List T × List (Stage T)}
    (hv : CollectEv c r v) (hw : CollectEv c r w) : v = w := by
  obtain ⟨n, hn⟩ := hv
  obtain ⟨m, hm⟩ := hw
  have h1 : collectF (max n m) c r = .ok v :=
    (collectF_stable (Nat.le_max_left n m) (by rw [hn]; simp)).trans hn
  have h2 : collectF (max n m) c r = .ok w :=
    (collectF_stable (Nat.le_max_right n m) (by rw [hm]; simp)).trans hm
  exact Except.ok.inj (h1 ▸ h2)

theorem toListEv_det {T : Type} {co : Composer T} {input : List T}
    {v w : List T × Composer T}
    (hv : ToListEv co input v) (hw : ToListEv co input w) : v = w := by
  obtain ⟨n, hn⟩ := hv
  obtain ⟨m, hm⟩ := hw
  have h1 : toListF (max n m) co input = .ok v :=
    (toListF_stable (Nat.le_max_left n m) (by rw [hn]; simp)).trans hn
  have h2 : toListF (max n m) co input = .ok w :=
    (toListF_stable (Nat.le_max_right n m) (by rw [hm]; simp)).trans hm
  exact Except.ok.inj (h1 ▸ h2)

/-! Claim C2 — the concrete demo scenario.  The code runs the maps
`x+1`, `x*x`, `x-10` in that order, so the intermediate sequence is
`(x+1)^2 - 10` = `[-6,-1,6,15,26,39,54,71,90,111]`; after `filter (>5)`,
`limit 5`, descending sort, `limit 2`, ascending sort the output is
`[39, 54]`, not the `[43, 58]` stated in the specification (whose
intermediate list `[-6,-5,-2,...]` does not match its own chain). -/

theorem toListOutF_stable {T : Type} {n m : Nat} {co : Composer T} {input : List T}
    (hle : n ≤ m) (h : toListOutF n co input ≠ .error .outOfFuel) :
    toListOutF m co input = toListOutF n co input := by
  have h' : toListF n co input ≠ .error .outOfFuel := by
    intro hx
    apply h
    rw [toListOutF, hx]
    rfl
  rw [toListOutF, toListOutF, toListF_stable hle h']

/-- Claim C2, counterexample: the pipeline of `main.cpp` over
`[1,...,10]` materializes (at completing fuel, hence by stability at every
sufficient fuel) to `[39, 54]`, which is not `[43, 58]`. -/
theorem demo_output_not_43_58 :
    toListOutF 300 demoComposer demoInput = .ok [39, 54] ∧
    (Except.ok [39, 54] : Except Err (List Int)) ≠ .ok [43, 58] :=
  ⟨rfl, fun hx => by exact absurd (Except.ok.inj hx) (by decide)⟩

/-- Claim C2, amended: the demo chain over `[1,...,10]` materializes to
`[39, 54]` (for any sufficient fuel). -/
theorem demo_output_39_54 :
    ∀ n : Nat, 300 ≤ n → toListOutF n demoComposer demoInput = .ok [39, 54] := by
  intro n hle
  have e3 : toListOutF 300 demoComposer demoInput = .ok [39, 54] := rfl
  rw [toListOutF_stable hle (by rw [e3]; exact fun hx => Except.noConfusion hx), e3]

/-- Witness for C2's amended claim at fuel 300. -/
theorem demo_output_39_54_witness :
    (300 ≤ 300) ∧ toListOutF 300 demoComposer demoInput = .ok [39, 54] :=
  ⟨Nat.le_refl 300, demo_output_39_54 300 (Nat.le_refl 300)⟩

/-- Claim C3: `ToList` on an empty composer evaluates
`last->getPreviousFunction()` through the null `last` pointer — modeled
as the `nullDeref` outcome — for every input and every fuel; in
particular it never returns a (empty or other) output sequence. -/
theorem empty_composer_materialize_null_deref :
    ∀ (T : Type) (n : Nat) (input : List T),
      toListF n (Composer.empty T) input = .error .nullDeref :=
  fun _ _ _ => rfl

/-- The three-`Select` composer the demo driver builds before the
self-append experiment (`com.Select(addOne).Select(addOne).Select(addOne)`). -/
def addOneChain : Composer Int :=
  (((Composer.empty Int).select (fun x => x + 1)).select (fun x => x + 1)).select
    (fun x => x + 1)

/-- Claim C9: chain building keeps the chain a finite acyclic list.
`append` of a stage conses an independent stage value; `append` of a
composer (pass-by-value, hence deep copy) splices an independent copy of
its chain, so even `com.append(com)` doubles the chain instead of forming
a cycle: the demo's self-append yields six `Select` stages and its copy
`com3` materializes `{1}` to `[7]`. -/
theorem append_no_cycle_deep_copy :
    (∀ (T : Type) (a b : Composer T),
      (a.appendComposer b).chain = deepCopyChain b.chain ++ a.chain ∧
      (a.appendComposer b).chain.length = b.chain.length + a.chain.length) ∧
    (∀ (T : Type) (co : Composer T) (s : Stage T), (co.append s).chain = s :: co.chain) ∧
    (addOneChain.appendComposer addOneChain).chain.length = 6 ∧
    toListOutF 50 (Composer.copy (addOneChain.appendComposer addOneChain)) [1] = .ok [7] := by
  refine ⟨fun T a b => ⟨rfl, ?_⟩, fun T co s => rfl, rfl, rfl⟩
  simp [Composer.appendComposer, deepCopyChain, Nat.add_comm]

/-! Claim C7 — idempotent exhaustion.  `Exhausted c` states that every
further non-reset pull of `c` yields `none` and leaves `c` unchanged. -/

/-- A chain is exhausted for the current run: every further pull with
`reset = false` (that completes) returns `none` and does not change the
chain. -/
def Exhausted {T : Type} (c : List (Stage T)) : Prop :=
  ∀ (m : Nat) (v : Option T × List (Stage T)), pullF m c false = .ok v → v = (none, c)

theorem exhausted_collect {T : Type} {rest : List (Stage T)} (h : Exhausted rest) :
    ∀ (m : Nat) (w : List T × List (Stage T)), collectF m rest false = .ok w → w = ([], rest) := by
  intro m w hw
  match m with
  | 0 => exact Except.noConfusion hw
  | k + 1 =>
    rw [collectF_succ] at hw
    split at hw
    next e hrec => exact Except.noConfusion hw
    next c' hrec =>
      have hc : c' = rest := pairSnd (h k _ hrec)
      rw [← Except.ok.inj hw, hc]
    next x c' hrec =>
      have := pairFst (h k _ hrec)
      exact absurd this (by simp)

theorem exhausted_iterate {T : Type} (rest : List (Stage T)) :
    Exhausted (.Iterate ([] : List T) :: rest) := by
  intro m v hv
  match m with
  | 0 => exact Except.noConfusion hv
  | k + 1 => exact (Except.ok.inj hv).symm

theorem exhausted_take_zero {T : Type} (cap : Nat) (rest : List (Stage T)) :
    Exhausted (.Take 0 cap :: rest : List (Stage T)) := by
  intro m v hv
  match m with
  | 0 => exact Except.noConfusion hv
  | k + 1 =>
    rw [pullF_take] at hv
    simp only [Bool.false_eq_true, if_false, if_pos rfl] at hv
    exact (Except.ok.inj hv).symm

theorem exhausted_select {T : Type} {rest : List (Stage T)} (f : T → T)
    (h : Exhausted rest) : Exhausted (.Select f :: rest) := by
  intro m v hv
  match m with
  | 0 => exact Except.noConfusion hv
  | k + 1 =>
    rw [pullF_select] at hv
    split at hv
    next e hrec => exact Except.noConfusion hv
    next o c' hrec =>
      have h1 := h k _ hrec
      have ho : o = none := congrArg Prod.fst h1
      have hc : c' = rest := congrArg Prod.snd h1
      rw [← Except.ok.inj hv, ho, hc]
      rfl

theorem exhausted_where {T : Type} {rest : List (Stage T)} (p : T → Bool)
    (h : Exhausted rest) : Exhausted (.Where p :: rest) := by
  intro m v hv
  match m with
  | 0 => exact Except.noConfusion hv
  | k + 1 =>
    rw [pullF_where] at hv
    split at hv
    next e hrec => exact Except.noConfusion hv
    next o c' hrec =>
      match k, hrec with
      | 0, hrec => exact Except.noConfusion hrec
      | j + 1, hrec =>
        rw [whereLoopF_succ] at hrec
        split at hrec
        next e hrec2 => exact Except.noConfusion hrec
        next c'' hrec2 =>
          have h1 := h j _ hrec2
          have hc'' : c'' = rest := congrArg Prod.snd h1
          have h2 := Except.ok.inj hrec
          have ho : o = none := (congrArg Prod.fst h2).symm
          have hc' : c' = c'' := (congrArg Prod.snd h2).symm
          rw [← Except.ok.inj hv, ho, hc', hc'']
        next x c'' hrec2 =>
          have := pairFst (h j _ hrec2)
          exact absurd this (by simp)

theorem exhausted_orderBy_processed {T : Type} (cmp : T → T → Bool)
    (rest : List (Stage T)) :
    Exhausted (.OrderBy cmp true ([] : List T) :: rest) := by
  intro m v hv
  match m with
  | 0 => exact Except.noConfusion hv
  | k + 1 =>
    rw [pullF_orderBy] at hv
    simp only [Bool.false_eq_true, if_false, if_pos rfl] at hv
    exact (Except.ok.inj hv).symm

theorem exhausted_orderBy {T : Type} {rest : List (Stage T)} (cmp : T → T → Bool)
    (h : Exhausted rest) : Exhausted (.OrderBy cmp false ([] : List T) :: rest) := by
  intro m v hv
  match m with
  | 0 => exact Except.noConfusion hv
  | k + 1 =>
    rw [pullF_orderBy] at hv
    simp only [Bool.false_eq_true, if_false] at hv
    split at hv
    next e hrec => exact Except.noConfusion hv
    next drained c' hrec =>
      have h1 := exhausted_collect h k _ hrec
      have hd : drained = [] := congrArg Prod.fst h1
      have hc : c' = rest := congrArg Prod.snd h1
      rw [hd] at hv
      rw [show stdSort cmp ([] ++ [] : List T) = [] from rfl] at hv
      rw [← Except.ok.inj hv, hc]

/-- Once any pull (also the reset pull) of any chain returns `none`, the
chain is exhausted for the rest of the run; likewise after the collection
loop finishes, the final chain is exhausted. -/
theorem pull_none_exhausted {T : Type} :
    ∀ n : Nat,
      (∀ (c : List (Stage T)) (r : Bool) (c' : List (Stage T)),
        pullF n c r = .ok (none, c') → Exhausted c') ∧
      (∀ (p : T → Bool) (c : List (Stage T)) (r : Bool) (c' : List (Stage T)),
        whereLoopF n p c r = .ok (none, c') → Exhausted c') ∧
      (∀ (c : List (Stage T)) (r : Bool) (l : List T) (c' : List (Stage T)),
        collectF n c r = .ok (l, c') → Exhausted c') := by
  intro n
  induction n with
  | zero =>
    refine ⟨?_, ?_, ?_⟩
    · intro c r c' h
      exact Except.noConfusion h
    · intro p c r c' h
      exact Except.noConfusion h
    · intro c r l c' h
      exact Except.noConfusion h
  | succ n ih =>
    obtain ⟨ihp, ihw, ihc⟩ := ih
    refine ⟨?_, ?_, ?_⟩
    · intro c r c' h
      match c with
      | [] => exact Except.noConfusion h
      | .Select f :: rest =>
        rw [pullF_select] at h
        split at h
        next e hrec => exact Except.noConfusion h
        next o c₁ hrec =>
          have h2 := Except.ok.inj h
          have ho : o.map f = none := congrArg Prod.fst h2
          have hc : Stage.Select f :: c₁ = c' := congrArg Prod.snd h2
          cases o with
          | some x => exact absurd ho (by simp)
          | none =>
            rw [← hc]
            exact exhausted_select f (ihp rest r c₁ hrec)
      | .Where p :: rest =>
        rw [pullF_where] at h
        split at h
        next e hrec => exact Except.noConfusion h
        next o c₁ hrec =>
          have h2 := Except.ok.inj h
          have ho : o = none := congrArg Prod.fst h2
          have hc : Stage.Where p :: c₁ = c' := congrArg Prod.snd h2
          rw [← hc]
          rw [ho] at hrec
          exact exhausted_where p (ihw p rest r c₁ hrec)
      | .Take rem cap :: rest =>
        rw [pullF_take] at h
        by_cases h0 : (if r then cap else rem) = 0
        · rw [if_pos h0] at h
          have hc := pairSnd (Except.ok.inj h)
          rw [← hc, h0]
          exact exhausted_take_zero cap rest
        · rw [if_neg h0] at h
          split at h
          next e hrec => exact Except.noConfusion h
          next c₁ hrec =>
            have hc := pairSnd (Except.ok.inj h)
            rw [← hc]
            exact exhausted_take_zero cap c₁
          next x c₁ hrec =>
            exact absurd (pairFst (Except.ok.inj h)) (by simp)
      | .OrderBy cmp pr res0 :: rest =>
        rw [pullF_orderBy] at h
        by_cases hpr : (if r then false else pr) = true
        · rw [if_pos hpr] at h
          match hres1 : (if r then ([] : List T) else res0) with
          | [] =>
            rw [hres1] at h
            have hc := pairSnd (Except.ok.inj h)
            rw [← hc, hpr]
            exact exhausted_orderBy_processed cmp rest
          | x :: xs =>
            rw [hres1] at h
            exact absurd (pairFst (Except.ok.inj h)) (by simp)
        · rw [if_neg hpr] at h
          split at h
          next e hrec => exact Except.noConfusion h
          next drained c₁ hrec =>
            split at h
            next hsort =>
              have hc := pairSnd (Except.ok.inj h)
              rw [← hc, eq_false_of_ne_true hpr]
              exact exhausted_orderBy cmp (ihc rest r drained c₁ hrec)
            next x xs hsort =>
              exact absurd (pairFst (Except.ok.inj h)) (by simp)
      | .Iterate elems :: rest =>
        rw [pullF_iterate] at h
        match elems with
        | [] =>
          have hc := pairSnd (Except.ok.inj h)
          rw [← hc]
          exact exhausted_iterate rest
        | x :: xs =>
          exact absurd (pairFst (Except.ok.inj h)) (by simp)
    · intro p c r c' h
      rw [whereLoopF_succ] at h
      split at h
      next e hrec => exact Except.noConfusion h
      next c₁ hrec =>
        have hc : c₁ = c' := pairSnd (Except.ok.inj h)
        rw [← hc]
        exact ihp c r c₁ hrec
      next x c₁ hrec =>
        by_cases hp : p x = true
        · rw [if_pos hp] at h
          exact absurd (pairFst (Except.ok.inj h)) (by simp)
        · rw [if_neg hp] at h
          exact ihw p c₁ false c' h
    · intro c r l c' h
      rw [collectF_succ] at h
      split at h
      next e hrec => exact Except.noConfusion h
      next c₁ hrec =>
        have hc : c₁ = c' := pairSnd (Except.ok.inj h)
        rw [← hc]
        exact ihp c r c₁ hrec
      next x c₁ hrec =>
        split at h
        next e hrec2 => exact Except.noConfusion h
        next l₂ c₂ hrec2 =>
          have hc : c₂ = c' := pairSnd (Except.ok.inj h)
          rw [← hc]
          exact ihc c₁ false l₂ c₂ hrec2

/-- Claim C7: for every stage kind and every chain state, once a pull
(with or without the fresh-run flag) returns `None`, every completed
subsequent pull of the resulting chain in the same run returns `None`
again (and leaves the chain unchanged). -/
theorem pull_none_idempotent :
    ∀ (T : Type) (c : List (Stage T)) (r : Bool) (n : Nat) (c' : List (Stage T)),
      pullF n c r = .ok (none, c') →
      ∀ (m : Nat) (v : Option T × List (Stage T)), pullF m c' false = .ok v → v = (none, c') :=
  fun _ c r n c' h => (pull_none_exhausted n).1 c r c' h

/-- Witness for C7: a map stage over an exhausted source. -/
theorem pull_none_idempotent_witness :
    pullF 2 [Stage.Select (fun x => x + 1), Stage.Iterate ([] : List Int)] true
      = .ok (none, [Stage.Select (fun x => x + 1), Stage.Iterate []]) ∧
    pullF 2 [Stage.Select (fun x => x + 1), Stage.Iterate ([] : List Int)] false
      = .ok (none, [Stage.Select (fun x => x + 1), Stage.Iterate []]) ∧
    ((none, [Stage.Select (fun x => x + 1), Stage.Iterate ([] : List Int)]) :
        Option Int × List (Stage Int))
      = (none, [Stage.Select (fun x => x + 1), Stage.Iterate []]) :=
  ⟨rfl, rfl,
    pull_none_idempotent Int [Stage.Select (fun x => x + 1), Stage.Iterate []] true 2
      [Stage.Select (fun x => x + 1), Stage.Iterate []] rfl 2
      (none, [Stage.Select (fun x => x + 1), Stage.Iterate []]) rfl⟩

/-! Fuel-free step constructors for the collection loop. -/

theorem collectEv_none {T : Type} {n : Nat} {c c₁ : List (Stage T)} {r : Bool}
    (h : pullF n c r = .ok (none, c₁)) : CollectEv c r ([], c₁) :=
  ⟨n + 1, by rw [collectF_succ, h]⟩

theorem collectEv_some {T : Type} {n m : Nat} {c c₁ c₂ : List (Stage T)} {r : Bool}
    {x : T} {l : List T}
    (h : pullF n c r = .ok (some x, c₁)) (h2 : collectF m c₁ false = .ok (l, c₂)) :
    CollectEv c r (x :: l, c₂) := by
  have hp : pullF (max n m) c r = .ok (some x, c₁) :=
    (pullF_stable (Nat.le_max_left n m) (by rw [h]; simp)).trans h
  have hc : collectF (max n m) c₁ false = .ok (l, c₂) :=
    (collectF_stable (Nat.le_max_right n m) (by rw [h2]; simp)).trans h2
  refine ⟨max n m + 1, ?_⟩
  rw [collectF_succ, hp]
  dsimp only
  rw [hc]

/-! Claim C4 — the `Take` (limit) stage. -/

/-- The collection loop below a `Take` stage yields exactly the first
`remaining` (after reset: `capacity`) elements of what the upstream
would yield. -/
theorem take_collect {T : Type} :
    ∀ (n : Nat) (rem cap : Nat) (rest rest' : List (Stage T)) (r : Bool) (l : List T),
      collectF n rest r = .ok (l, rest') →
      ∃ c', CollectEv (.Take rem cap :: rest) r (l.take (if r then cap else rem), c') := by
  intro n
  induction n with
  | zero =>
    intro rem cap rest rest' r l h
    exact Except.noConfusion h
  | succ n ih =>
    intro rem cap rest rest' r l h
    by_cases h0 : (if r then cap else rem) = 0
    · rw [h0, List.take_zero]
      refine ⟨.Take (if r then cap else rem) cap :: rest, collectEv_none (n := 1) ?_⟩
      rw [pullF_take, if_pos h0]
    · rw [collectF_succ] at h
      split at h
      next e hrec => exact Except.noConfusion h
      next c₁ hrec =>
        have hl : ([] : List T) = l := pairFst (Except.ok.inj h)
        have hc : c₁ = rest' := pairSnd (Except.ok.inj h)
        rw [← hl, List.take_nil]
        refine ⟨.Take 0 cap :: c₁, collectEv_none (n := n + 1) ?_⟩
        rw [pullF_take, if_neg h0, hrec]
      next x c₁ hrec =>
        split at h
        next e hrec2 => exact Except.noConfusion h
        next l₁ c₂ hrec2 =>
          have hl : x :: l₁ = l := pairFst (Except.ok.inj h)
          have hc : c₂ = rest' := pairSnd (Except.ok.inj h)
          obtain ⟨k, hk⟩ : ∃ k, (if r then cap else rem) = k + 1 :=
            Nat.exists_eq_succ_of_ne_zero h0
          have hpull : pullF (n + 1) (.Take rem cap :: rest) r
              = .ok (some x, .Take ((if r then cap else rem) - 1) cap :: c₁) := by
            rw [pullF_take, if_neg h0, hrec]
          obtain ⟨c', m, hm⟩ := ih k cap c₁ c₂ false l₁ hrec2
          have hm' : collectF m (.Take ((if r then cap else rem) - 1) cap :: c₁) false
              = .ok (l₁.take k, c') := by
            rw [hk]
            simpa using hm
          refine ⟨c', ?_⟩
          rw [← hl, hk, List.take_succ_cons]
          exact collectEv_some hpull hm'

/-- Claim C4: behavior of the limit stage.  (a) with `remaining = 0` a
pull returns `None` without consulting the upstream (the chain beyond the
`Take` stage is untouched — this also holds with no upstream attached);
(b) an upstream `None` forces `remaining` to `0`; (c) the run's output
through a `Take` stage is exactly the first `remaining` (after a reset:
`capacity`) elements the upstream yields, so at most that many, and all
of them when the upstream yields fewer; (d) capacity `0` (the smallest
value of the unsigned capacity) is valid and yields an empty run. -/
theorem take_limit_behavior :
    ∀ T : Type,
      (∀ (cap : Nat) (rest : List (Stage T)) (n : Nat),
        pullF (n + 1) (.Take 0 cap :: rest) false = .ok (none, .Take 0 cap :: rest)) ∧
      (∀ (rem cap : Nat) (rest rest' : List (Stage T)) (r : Bool) (n : Nat),
        (if r then cap else rem) ≠ 0 → pullF n rest r = .ok (none, rest') →
        pullF (n + 1) (.Take rem cap :: rest) r = .ok (none, .Take 0 cap :: rest')) ∧
      (∀ (rem cap : Nat) (rest rest' : List (Stage T)) (r : Bool) (l : List T) (n : Nat),
        collectF n rest r = .ok (l, rest') →
        ∃ c', CollectEv (.Take rem cap :: rest) r (l.take (if r then cap else rem), c')) ∧
      (∀ (rem : Nat) (rest : List (Stage T)) (n : Nat),
        collectF (n + 2) (.Take rem 0 :: rest) true = .ok ([], .Take 0 0 :: rest)) := by
  intro T
  refine ⟨?_, ?_, ?_, ?_⟩
  · intro cap rest n
    rw [pullF_take]
    simp
  · intro rem cap rest rest' r n h0 h
    rw [pullF_take, if_neg h0, h]
  · intro rem cap rest rest' r l n h
    exact take_collect n rem cap rest rest' r l h
  · intro rem rest n
    rw [collectF_succ, pullF_take]
    simp

/-- Witness for C4 at concrete inputs: a limit-2 stage over a three
element source passes through exactly two elements; a saturated limit
returns `None` without an upstream present; a short upstream closes the
stage; capacity 0 yields nothing. -/
theorem take_limit_behavior_witness :
    (pullF 1 ([Stage.Take 0 5] : List (Stage Int)) false = .ok (none, [Stage.Take 0 5])) ∧
    ((if true then (3 : Nat) else 7) ≠ 0 ∧
      pullF 1 [Stage.Iterate ([] : List Int)] true = .ok (none, [Stage.Iterate []]) ∧
      pullF 2 [Stage.Take 7 3, Stage.Iterate ([] : List Int)] true
        = .ok (none, [Stage.Take 0 3, Stage.Iterate []])) ∧
    (collectF 9 [Stage.Iterate ([10, 20, 30] : List Int)] true
        = .ok ([10, 20, 30], [Stage.Iterate []]) ∧
      ∃ c', CollectEv [Stage.Take 9 2, Stage.Iterate ([10, 20, 30] : List Int)] true
        ([10, 20, 30].take (if true then 2 else 9), c')) ∧
    collectF 6 [Stage.Take 4 0, Stage.Iterate ([10, 20, 30] : List Int)] true
      = .ok ([], [Stage.Take 0 0, Stage.Iterate [10, 20, 30]]) := by
  obtain ⟨ha, hb, hc, hd⟩ := take_limit_behavior Int
  refine ⟨ha 5 [] 0, ⟨by decide, rfl, hb 7 3 _ _ true 1 (by decide) rfl⟩, ⟨rfl, ?_⟩, hd 4 _ 4⟩
  exact hc 9 2 _ _ true [10, 20, 30] 9 rfl

/-! Claim C8 — map/filter/limit chains.  A spec-side denotation
(`specDenote`, written after the spec's words: maps transform, predicates
filter, limits cap) is proved equal to the operational materialization
for chains of only `Select`/`Where`/`Take` stages. -/

/-- Stage kinds admitted by the order-preservation property of the spec
(map, filter, limit — no sort-drain, no source). -/
def mflStage {T : Type} : Stage T → Bool
  | .Select _ => true
  | .Where _ => true
  | .Take _ _ => true
  | _ => false

/-- Spec-side denotation of a map/filter/limit chain (head-first list,
so the head is applied last): each map stage transforms, each filter
stage keeps the passing elements in order, each limit stage caps the
length at its `remaining` count (= `capacity` on a fresh run, `r = true`).
Other stage kinds are ignored; the denotation is only used under
`mflStage`. -/
def specDenote {T : Type} (r : Bool) : List (Stage T) → List T → List T
  | [], l => l
  | .Select f :: rest, l => (specDenote r rest l).map f
  | .Where p :: rest, l => (specDenote r rest l).filter p
  | .Take rem cap :: rest, l => (specDenote r rest l).take (if r then cap else rem)
  | .OrderBy _ _ _ :: rest, l => specDenote r rest l
  | .Iterate _ :: rest, l => specDenote r rest l

/-- The composition of all map-stage transforms of a chain (head-first,
so the head transform is applied last). -/
def chainMap {T : Type} : List (Stage T) → T → T
  | [], x => x
  | .Select f :: rest, x => f (chainMap rest x)
  | _ :: rest, x => chainMap rest x

/-- The source adapter yields its snapshot in order, then is exhausted. -/
theorem iterate_collect {T : Type} :
    ∀ (l : List T) (rest : List (Stage T)) (r : Bool),
      CollectEv (.Iterate l :: rest) r (l, .Iterate [] :: rest) := by
  intro l
  induction l with
  | nil =>
    intro rest r
    exact collectEv_none (n := 1) (by rw [pullF_iterate])
  | cons x xs ih =>
    intro rest r
    obtain ⟨m, hm⟩ := ih rest false
    exact collectEv_some (n := 1) (by rw [pullF_iterate]) hm

/-- A map stage maps the collected output of its upstream. -/
theorem select_collect {T : Type} (f : T → T) :
    ∀ (n : Nat) (rest rest' : List (Stage T)) (r : Bool) (l : List T),
      collectF n rest r = .ok (l, rest') →
      CollectEv (.Select f :: rest) r (l.map f, .Select f :: rest') := by
  intro n
  induction n with
  | zero =>
    intro rest rest' r l h
    exact Except.noConfusion h
  | succ n ih =>
    intro rest rest' r l h
    rw [collectF_succ] at h
    split at h
    next e hrec => exact Except.noConfusion h
    next c₁ hrec =>
      have hl : ([] : List T) = l := pairFst (Except.ok.inj h)
      have hc : c₁ = rest' := pairSnd (Except.ok.inj h)
      rw [← hl, ← hc]
      exact collectEv_none (n := n + 1) (by rw [pullF_select, hrec]; rfl)
    next x c₁ hrec =>
      split at h
      next e hrec2 => exact Except.noConfusion h
      next l₁ c₂ hrec2 =>
        have hl : x :: l₁ = l := pairFst (Except.ok.inj h)
        have hc : c₂ = rest' := pairSnd (Except.ok.inj h)
        obtain ⟨m, hm⟩ := ih c₁ c₂ false l₁ hrec2
        rw [← hl, ← hc]
        exact collectEv_some (n := n + 1) (by rw [pullF_select, hrec]; rfl) hm

/-- Extending the filter loop backwards over a rejected element. -/
theorem whereLoop_extend {T : Type} {a b : Nat} {p : T → Bool} {x : T}
    {rest c₁ : List (Stage T)} {r : Bool} {v : Option T × List (Stage T)}
    (h : pullF a rest r = .ok (some x, c₁)) (hp : p x = false)
    (h2 : whereLoopF b p c₁ false = .ok v) :
    whereLoopF (max a b + 1) p rest r = .ok v := by
  have hp' : pullF (max a b) rest r = .ok (some x, c₁) :=
    (pullF_stable (Nat.le_max_left a b) (by rw [h]; simp)).trans h
  have h2' : whereLoopF (max a b) p c₁ false = .ok v :=
    (whereLoopF_stable (Nat.le_max_right a b) (by rw [h2]; simp)).trans h2
  rw [whereLoopF_succ, hp']
  dsimp only
  rw [if_neg (by rw [hp]; exact Bool.false_ne_true), h2']

/-- A filter stage filters the collected output of its upstream (and ends
in the same upstream state, since both consume the identical pull
sequence). -/
theorem where_collect {T : Type} (p : T → Bool) :
    ∀ (n : Nat) (rest rest' : List (Stage T)) (r : Bool) (l : List T),
      collectF n rest r = .ok (l, rest') →
      CollectEv (.Where p :: rest) r (l.filter p, .Where p :: rest') := by
  intro n
  induction n with
  | zero =>
    intro rest rest' r l h
    exact Except.noConfusion h
  | succ n ih =>
    intro rest rest' r l h
    rw [collectF_succ] at h
    split at h
    next e hrec => exact Except.noConfusion h
    next c₁ hrec =>
      have hl : ([] : List T) = l := pairFst (Except.ok.inj h)
      have hc : c₁ = rest' := pairSnd (Except.ok.inj h)
      rw [← hl, ← hc]
      refine collectEv_none (n := n + 2) ?_
      rw [pullF_where]
      have : whereLoopF (n + 1) p rest r = .ok (none, c₁) := by
        rw [whereLoopF_succ, hrec]
      rw [this]
    next x c₁ hrec =>
      split at h
      next e hrec2 => exact Except.noConfusion h
      next l₁ c₂ hrec2 =>
        have hl : x :: l₁ = l := pairFst (Except.ok.inj h)
        have hc : c₂ = rest' := pairSnd (Except.ok.inj h)
        obtain ⟨m, hm⟩ := ih c₁ c₂ false l₁ hrec2
        rw [← hl, ← hc]
        by_cases hp : p x = true
        · rw [List.filter_cons, if_pos hp]
          refine collectEv_some (n := n + 2) ?_ hm
          rw [pullF_where]
          have : whereLoopF (n + 1) p rest r = .ok (some x, c₁) := by
            rw [whereLoopF_succ, hrec]
            dsimp only
            rw [if_pos hp]
          rw [this]
        · rw [List.filter_cons, if_neg hp]
          have hpf : p x = false := eq_false_of_ne_true hp
          -- the rejected pull is absorbed into the first pull of the
          -- continuation run over `.Where p :: c₁`
          match m, hm with
          | m + 1, hm =>
            rw [collectF_succ] at hm
            split at hm
            next e hrec3 => exact Except.noConfusion hm
            next d₁ hrec3 =>
              -- first pull of the continuation returned none
              have hl2 : ([] : List T) = l₁.filter p := pairFst (Except.ok.inj hm)
              have hd : d₁ = Stage.Where p :: c₂ := pairSnd (Except.ok.inj hm)
              match m, hrec3 with
              | m + 1, hrec3 =>
                rw [pullF_where] at hrec3
                split at hrec3
                next e hw => exact Except.noConfusion hrec3
                next o dw hw =>
                  have ho : o = none := pairFst (Except.ok.inj hrec3)
                  have hdw : Stage.Where p :: dw = d₁ := pairSnd (Except.ok.inj hrec3)
                  rw [ho] at hw
                  have hext := whereLoop_extend hrec hpf hw
                  rw [← hl2, ← (hdw.trans hd)]
                  exact collectEv_none (n := max n m + 2) (by rw [pullF_where, hext])
            next y d₁ hrec3 =>
              -- first pull of the continuation returned some y
              split at hm
              next e hrec4 => exact Except.noConfusion hm
              next l₂ d₂ hrec4 =>
                have hl2 : y :: l₂ = l₁.filter p := pairFst (Except.ok.inj hm)
                have hd : d₂ = Stage.Where p :: c₂ := pairSnd (Except.ok.inj hm)
                match m, hrec3, hrec4 with
                | m + 1, hrec3, hrec4 =>
                  rw [pullF_where] at hrec3
                  split at hrec3
                  next e hw => exact Except.noConfusion hrec3
                  next o dw hw =>
                    have ho : o = some y := pairFst (Except.ok.inj hrec3)
                    have hdw : Stage.Where p :: dw = d₁ := pairSnd (Except.ok.inj hrec3)
                    rw [ho] at hw
                    have hext := whereLoop_extend hrec hpf hw
                    rw [← hl2, ← hd]
                    refine collectEv_some (n := max n m + 2)
                      (by rw [pullF_where, hext]) (m := m + 2)
                      (show collectF (m + 2) (Stage.Where p :: dw) false = .ok (l₂, d₂) from ?_)
                    rw [hdw]
                    exact (collectF_stable (Nat.le_succ (m + 1)) (by rw [hrec4]; simp)).trans hrec4

/-- A chain of only map/filter/limit stages materializes (over an
attached source) to exactly its spec-side denotation. -/
theorem mfl_collect {T : Type} :
    ∀ (c : List (Stage T)), (∀ s ∈ c, mflStage s = true) →
      ∀ (input : List T) (r : Bool),
        ∃ d, CollectEv (c ++ [.Iterate input]) r (specDenote r c input, d) := by
  intro c
  induction c with
  | nil =>
    intro _ input r
    exact ⟨[.Iterate []], iterate_collect input [] r⟩
  | cons s c' ih =>
    intro hmfl input r
    have hs := hmfl s (List.mem_cons_self s c')
    have hc' : ∀ t ∈ c', mflStage t = true := fun t ht => hmfl t (List.mem_cons_of_mem s ht)
    obtain ⟨d, m, hm⟩ := ih hc' input r
    match s, hs with
    | .Select f, _ =>
      exact ⟨.Select f :: d, select_collect f m _ d r _ hm⟩
    | .Where p, _ =>
      exact ⟨.Where p :: d, where_collect p m _ d r _ hm⟩
    | .Take rem cap, _ =>
      obtain ⟨c'', hev⟩ := take_collect m rem cap _ d r _ hm
      exact ⟨c'', hev⟩

/-- Every map/filter/limit denotation is the image, under the composed
maps, of a subsequence of the input. -/
theorem specDenote_sublist {T : Type} :
    ∀ (c : List (Stage T)) (r : Bool) (l : List T), (∀ s ∈ c, mflStage s = true) →
      ∃ sub : List T, sub.Sublist l ∧ specDenote r c l = sub.map (chainMap c) := by
  intro c
  induction c with
  | nil =>
    intro r l _
    exact ⟨l, List.Sublist.refl l, by simp [specDenote, chainMap]⟩
  | cons s c' ih =>
    intro r l hmfl
    have hs := hmfl s (List.mem_cons_self s c')
    have hc' : ∀ t ∈ c', mflStage t = true := fun t ht => hmfl t (List.mem_cons_of_mem s ht)
    obtain ⟨sub, hsub, he⟩ := ih r l hc'
    match s, hs with
    | .Select f, _ =>
      refine ⟨sub, hsub, ?_⟩
      rw [show specDenote r (.Select f :: c') l = (specDenote r c' l).map f from rfl, he,
        List.map_map]
      rfl
    | .Where p, _ =>
      refine ⟨sub.filter (fun x => p (chainMap c' x)), (List.filter_sublist sub).trans hsub, ?_⟩
      rw [show specDenote r (.Where p :: c') l = (specDenote r c' l).filter p from rfl, he]
      rw [List.filter_map]
      rfl
    | .Take rem cap, _ =>
      refine ⟨sub.take (if r then cap else rem), (List.take_sublist _ sub).trans hsub, ?_⟩
      rw [show specDenote r (.Take rem cap :: c') l
          = (specDenote r c' l).take (if r then cap else rem) from rfl, he, ← List.map_take]
      rfl

theorem toListOut_of_collect {T : Type} {s : Stage T} {c : List (Stage T)}
    {input l : List T} {d : List (Stage T)} {m : Nat}
    (h : collectF m ((s :: c) ++ [.Iterate input]) true = .ok (l, d)) :
    toListOutF m ⟨s :: c⟩ input = .ok l := by
  rw [toListOutF,
    show toListF m (⟨s :: c⟩ : Composer T) input
      = (collectF m ((s :: c) ++ [.Iterate input]) true).bind
          (fun v => .ok (v.1, ⟨v.2.take (s :: c).length⟩)) from rfl, h]
  rfl

/-- Claim C8: for every input and every nonempty chain of only map,
filter and limit stages, the materialized output is the spec-side
denotation — the input mapped by the transforms, filtered by the
predicates and capped by the limits — and hence the image under the
composed map functions of a subsequence of the input, in input order. -/
theorem mfl_chain_order_preserving :
    ∀ (T : Type) (c : List (Stage T)),
      (∀ s ∈ c, mflStage s = true) → c ≠ [] →
      ∀ input : List T,
        ToListOutEv ⟨c⟩ input (specDenote true c input) ∧
        ∃ sub : List T, sub.Sublist input ∧ specDenote true c input = sub.map (chainMap c) := by
  intro T c hmfl hne input
  constructor
  · obtain ⟨d, m, hm⟩ := mfl_collect c hmfl input true
    match c, hne, hm with
    | s :: c', _, hm => exact ⟨m, toListOut_of_collect hm⟩
  · exact specDenote_sublist c true input hmfl

/-- Witness for C8: the chain filter(x>0) ∘ map(x*2) (head-first list:
the filter is the head, applied last) over [1, -2, 3]. -/
theorem mfl_chain_order_preserving_witness :
    (∀ s ∈ ([Stage.Where (fun x => decide (0 < x)), Stage.Select (fun x => x * 2)] :
        List (Stage Int)), mflStage s = true) ∧
    ([Stage.Where (fun x => decide (0 < x)), Stage.Select (fun x => x * 2)] :
        List (Stage Int)) ≠ [] ∧
    specDenote true
        ([Stage.Where (fun x => decide (0 < x)), Stage.Select (fun x => x * 2)] :
          List (Stage Int)) [1, -2, 3] = [2, 6] ∧
    (ToListOutEv ⟨[Stage.Where (fun x => decide (0 < x)), Stage.Select (fun x => x * 2)]⟩
        [1, -2, 3]
        (specDenote true
          ([Stage.Where (fun x => decide (0 < x)), Stage.Select (fun x => x * 2)] :
            List (Stage Int)) [1, -2, 3]) ∧
      ∃ sub : List Int, sub.Sublist [1, -2, 3] ∧
        specDenote true
          ([Stage.Where (fun x => decide (0 < x)), Stage.Select (fun x => x * 2)] :
            List (Stage Int)) [1, -2, 3]
          = sub.map (chainMap [Stage.Where (fun x => decide (0 < x)),
              Stage.Select (fun x => x * 2)])) := by
  refine ⟨?_, List.cons_ne_nil _ _, rfl, ?_⟩
  · intro s hs
    rcases List.mem_cons.1 hs with rfl | hs
    · rfl
    rcases List.mem_cons.1 hs with rfl | hs
    · rfl
    exact absurd hs (List.not_mem_nil s)
  · exact mfl_chain_order_preserving Int _
      (by
        intro s hs
        rcases List.mem_cons.1 hs with rfl | hs
        · rfl
        rcases List.mem_cons.1 hs with rfl | hs
        · rfl
        exact absurd hs (List.not_mem_nil s))
      (List.cons_ne_nil _ _) [1, -2, 3]

/-! Claim C5 — sort correctness.  First: after a pull or a collection
loop completes with `none`, re-pulling the final chain not only keeps
returning `none` (claim C7) but also completes within one extra unit of
fuel.  This makes the `OrderBy` stage's re-drain of its exhausted
upstream (the `processed` flag is never set in the source, so every pull
re-enters the drain loop) provably terminating. -/

theorem none_complete {T : Type} :
    ∀ n : Nat,
      (∀ (c : List (Stage T)) (r : Bool) (c' : List (Stage T)),
        pullF n c r = .ok (none, c') → pullF (n + 1) c' false = .ok (none, c')) ∧
      (∀ (p : T → Bool) (c : List (Stage T)) (r : Bool) (w : List (Stage T)),
        whereLoopF n p c r = .ok (none, w) → pullF n w false = .ok (none, w)) ∧
      (∀ (c : List (Stage T)) (r : Bool) (l : List T) (c₂ : List (Stage T)),
        collectF n c r = .ok (l, c₂) → pullF n c₂ false = .ok (none, c₂)) := by
  intro n
  induction n with
  | zero =>
    refine ⟨?_, ?_, ?_⟩
    · intro c r c' h
      exact Except.noConfusion h
    · intro p c r w h
      exact Except.noConfusion h
    · intro c r l c₂ h
      exact Except.noConfusion h
  | succ k ih =>
    obtain ⟨ihS, ihW, ihC⟩ := ih
    refine ⟨?_, ?_, ?_⟩
    · intro c r c' h
      match c with
      | [] => exact Except.noConfusion h
      | .Select f :: rest =>
        rw [pullF_select] at h
        split at h
        next e hrec => exact Except.noConfusion h
        next o c₁ hrec =>
          have ho : o.map f = none := pairFst (Except.ok.inj h)
          have hc : Stage.Select f :: c₁ = c' := pairSnd (Except.ok.inj h)
          cases o with
          | some x => exact absurd ho (by simp)
          | none =>
            have := ihS rest r c₁ hrec
            rw [← hc, pullF_select, this]
            rfl
      | .Where p :: rest =>
        rw [pullF_where] at h
        split at h
        next e hrec => exact Except.noConfusion h
        next o c₁ hrec =>
          have ho : o = none := pairFst (Except.ok.inj h)
          have hc : Stage.Where p :: c₁ = c' := pairSnd (Except.ok.inj h)
          rw [ho] at hrec
          have := ihW p rest r c₁ hrec
          rw [← hc, pullF_where, whereLoopF_succ, this]
      | .Take rem cap :: rest =>
        rw [pullF_take] at h
        by_cases h0 : (if r then cap else rem) = 0
        · rw [if_pos h0] at h
          have hc := pairSnd (Except.ok.inj h)
          rw [← hc, h0, pullF_take]
          simp
        · rw [if_neg h0] at h
          split at h
          next e hrec => exact Except.noConfusion h
          next c₁ hrec =>
            have hc := pairSnd (Except.ok.inj h)
            rw [← hc, pullF_take]
            simp
          next x c₁ hrec =>
            exact absurd (pairFst (Except.ok.inj h)) (by simp)
      | .OrderBy cmp pr res0 :: rest =>
        rw [pullF_orderBy] at h
        by_cases hpr : (if r then false else pr) = true
        · rw [if_pos hpr] at h
          match hres1 : (if r then ([] : List T) else res0) with
          | [] =>
            rw [hres1] at h
            have hc := pairSnd (Except.ok.inj h)
            rw [← hc, hpr, pullF_orderBy]
            simp
          | x :: xs =>
            rw [hres1] at h
            exact absurd (pairFst (Except.ok.inj h)) (by simp)
        · rw [if_neg hpr] at h
          split at h
          next e hrec => exact Except.noConfusion h
          next drained c₁ hrec =>
            split at h
            next hsort =>
              have hc := pairSnd (Except.ok.inj h)
              have hC := ihC rest r drained c₁ hrec
              have hcoll : collectF (k + 1) c₁ false = .ok ([], c₁) := by
                rw [collectF_succ, hC]
              rw [← hc, eq_false_of_ne_true hpr, pullF_orderBy]
              simp only [Bool.false_eq_true, if_false]
              rw [hcoll]
              rfl
            next x xs hsort =>
              exact absurd (pairFst (Except.ok.inj h)) (by simp)
      | .Iterate elems :: rest =>
        rw [pullF_iterate] at h
        match elems with
        | [] =>
          have hc := pairSnd (Except.ok.inj h)
          rw [← hc, pullF_iterate]
        | x :: xs =>
          exact absurd (pairFst (Except.ok.inj h)) (by simp)
    · intro p c r w h
      rw [whereLoopF_succ] at h
      split at h
      next e hrec => exact Except.noConfusion h
      next c₁ hrec =>
        have hc : c₁ = w := pairSnd (Except.ok.inj h)
        rw [← hc]
        exact ihS c r c₁ hrec
      next x c₁ hrec =>
        by_cases hp : p x = true
        · rw [if_pos hp] at h
          exact absurd (pairFst (Except.ok.inj h)) (by simp)
        · rw [if_neg hp] at h
          have := ihW p c₁ false w h
          exact (pullF_stable (Nat.le_succ k) (by rw [this]; simp)).trans this
    · intro c r l c₂ h
      rw [collectF_succ] at h
      split at h
      next e hrec => exact Except.noConfusion h
      next c₁ hrec =>
        have hc : c₁ = c₂ := pairSnd (Except.ok.inj h)
        rw [← hc]
        exact ihS c r c₁ hrec
      next x c₁ hrec =>
        split at h
        next e hrec2 => exact Except.noConfusion h
        next l₂ d₂ hrec2 =>
          have hc : d₂ = c₂ := pairSnd (Except.ok.inj h)
          rw [← hc]
          have := ihC c₁ false l₂ d₂ hrec2
          exact (pullF_stable (Nat.le_succ k) (by rw [this]; simp)).trans this

/-! Sorting facts about the `std::sort` model, under the strict weak
ordering assumptions on the caller's comparator: asymmetry and negative
transitivity (both consequences of a strict weak ordering). -/

theorem stdSort_perm {T : Type} (cmp : T → T → Bool) (l : List T) :
    (stdSort cmp l).Perm l :=
  List.perm_insertionSort _ l

theorem stdSort_sorted {T : Type} {cmp : T → T → Bool}
    (hasym : ∀ a b, cmp a b = true → cmp b a = false)
    (hneg : ∀ a b c, cmp a c = true → cmp a b = true ∨ cmp b c = true)
    (l : List T) : List.Sorted (sortRel cmp) (stdSort cmp l) := by
  haveI : IsTotal T (sortRel cmp) := by
    constructor
    intro a b
    by_cases h : cmp b a = true
    · exact Or.inr (hasym b a h)
    · exact Or.inl (eq_false_of_ne_true h)
  haveI : IsTrans T (sortRel cmp) := by
    constructor
    intro a b c hab hbc
    by_contra hca
    rcases hneg c b a (eq_true_of_ne_false hca) with h | h
    · rw [hbc] at h
      exact Bool.false_ne_true h
    · rw [hab] at h
      exact Bool.false_ne_true h
  exact List.sorted_insertionSort _ l

theorem stdSort_of_sorted {T : Type} {cmp : T → T → Bool} {l : List T}
    (h : List.Sorted (sortRel cmp) l) : stdSort cmp l = l :=
  h.insertionSort_eq

/-- Draining the sorted buffer: with an exhausted upstream (witnessed by
a completing `none` pull), an `OrderBy` holding a sorted buffer `S`
yields exactly `S` (each pull re-drains the exhausted upstream — the
`processed` flag is never set true in the source — and re-sorts the
already sorted remaining buffer, which leaves it unchanged). -/
theorem orderBy_buffer_drain {T : Type} {cmp : T → T → Bool} {rest : List (Stage T)} {k : Nat}
    (hE : pullF k rest false = .ok (none, rest)) :
    ∀ S : List T, List.Sorted (sortRel cmp) S →
      CollectEv (.OrderBy cmp false S :: rest) false (S, .OrderBy cmp false [] :: rest) := by
  have hcoll : collectF (k + 1) rest false = .ok ([], rest) := by
    rw [collectF_succ, hE]
  intro S
  induction S with
  | nil =>
    intro _
    refine collectEv_none (n := k + 2) ?_
    rw [pullF_orderBy]
    simp only [Bool.false_eq_true, if_false]
    rw [hcoll]
    rfl
  | cons x xs ih =>
    intro hS
    have hpull : pullF (k + 2) (.OrderBy cmp false (x :: xs) :: rest) false
        = .ok (some x, .OrderBy cmp false xs :: rest) := by
      rw [pullF_orderBy]
      simp only [Bool.false_eq_true, if_false]
      rw [hcoll]
      dsimp only
      rw [List.append_nil, stdSort_of_sorted hS]
    obtain ⟨m, hm⟩ := ih (List.Pairwise.of_cons hS)
    exact collectEv_some hpull hm

/-- A chain headed by an `OrderBy` stage materializes (fresh run) to the
`std::sort` of what the rest of the chain materializes to, ending with a
cleared buffer over the rest's final state. -/
theorem orderBy_head_collect {T : Type} {cmp : T → T → Bool}
    (hsorted : ∀ l, List.Sorted (sortRel cmp) (stdSort cmp l))
    {n : Nat} {rest rest₁ : List (Stage T)} {L : List T} (pr : Bool) (res : List T)
    (h : collectF n rest true = .ok (L, rest₁)) :
    CollectEv (.OrderBy cmp pr res :: rest) true
      (stdSort cmp L, .OrderBy cmp false [] :: rest₁) := by
  have hE : pullF n rest₁ false = .ok (none, rest₁) := (none_complete n).2.2 rest true L rest₁ h
  have hfirst : pullF (n + 1) (.OrderBy cmp pr res :: rest) true
      = match stdSort cmp L with
        | [] => .ok (none, .OrderBy cmp false [] :: rest₁)
        | x :: xs => .ok (some x, .OrderBy cmp false xs :: rest₁) := by
    show (collectF n rest true).bind _ = _
    rw [h]
    rfl
  match hS : stdSort cmp L with
  | [] =>
    rw [hS] at hfirst
    exact collectEv_none hfirst
  | x :: xs =>
    rw [hS] at hfirst
    have hxs : List.Sorted (sortRel cmp) xs := List.Pairwise.of_cons (hS ▸ hsorted L)
    obtain ⟨m, hm⟩ := orderBy_buffer_drain hE xs hxs
    exact collectEv_some hfirst hm

/-- Inversion of `toListF` on a nonempty composer. -/
theorem toList_inv {T : Type} {n : Nat} {s : Stage T} {c : List (Stage T)}
    {input l : List T} {co' : Composer T}
    (h : toListF n ⟨s :: c⟩ input = .ok (l, co')) :
    ∃ d, collectF n ((s :: c) ++ [.Iterate input]) true = .ok (l, d) ∧
      co' = ⟨d.take (s :: c).length⟩ := by
  rw [show toListF n (⟨s :: c⟩ : Composer T) input
      = (collectF n ((s :: c) ++ [.Iterate input]) true).bind
          (fun v => .ok (v.1, ⟨v.2.take (s :: c).length⟩)) from rfl] at h
  cases hcoll : collectF n ((s :: c) ++ [.Iterate input]) true with
  | error e =>
    rw [hcoll] at h
    exact Except.noConfusion h
  | ok v =>
    rw [hcoll] at h
    obtain ⟨l₂, d⟩ := v
    have hl : l₂ = l := pairFst (Except.ok.inj h)
    have hco : (⟨d.take (s :: c).length⟩ : Composer T) = co' := pairSnd (Except.ok.inj h)
    refine ⟨d, ?_, hco.symm⟩
    rw [← hl]

theorem toListEv_of_collect {T : Type} {s : Stage T} {c : List (Stage T)}
    {input l : List T} {d : List (Stage T)} {m : Nat}
    (h : collectF m ((s :: c) ++ [.Iterate input]) true = .ok (l, d)) :
    toListF m ⟨s :: c⟩ input = .ok (l, ⟨d.take (s :: c).length⟩) := by
  rw [show toListF m (⟨s :: c⟩ : Composer T) input
      = (collectF m ((s :: c) ++ [.Iterate input]) true).bind
          (fun v => .ok (v.1, ⟨v.2.take (s :: c).length⟩)) from rfl, h]
  rfl

/-- Claim C5: for a comparator satisfying the strict-weak-ordering laws
(asymmetry and negative transitivity) and any nonempty chain, putting a
fresh `sortBy(cmp)` stage at the head makes the materialized output a
permutation of the chain-without-sort output, sorted so that no element
is `cmp`-below a later one. -/
theorem sortBy_head_sorted_permutation :
    ∀ (T : Type) (cmp : T → T → Bool),
      (∀ a b, cmp a b = true → cmp b a = false) →
      (∀ a b c, cmp a c = true → cmp a b = true ∨ cmp b c = true) →
      ∀ (c : List (Stage T)) (input l : List T) (co' : Composer T),
        c ≠ [] → ToListEv ⟨c⟩ input (l, co') →
        ∃ (l' : List T) (co'' : Composer T),
          ToListEv ⟨.OrderBy cmp false [] :: c⟩ input (l', co'') ∧
          l'.Perm l ∧ List.Sorted (sortRel cmp) l' := by
  intro T cmp hasym hneg c input l co' hne hEv
  obtain ⟨n, hn⟩ := hEv
  match c, hne, hn with
  | s :: c, _, hn =>
    obtain ⟨d, hcoll, hco⟩ := toList_inv hn
    have hsorted := stdSort_sorted hasym hneg
    obtain ⟨m, hm⟩ := orderBy_head_collect hsorted false [] hcoll
    have hpack := toListEv_of_collect (s := .OrderBy cmp false []) (c := s :: c) hm
    exact ⟨stdSort cmp l, _, ⟨m, hpack⟩, stdSort_perm cmp l, hsorted l⟩

/-- Witness for C5: ascending `<` on `Int` (a strict weak ordering) at
the head of a single map(x*x) chain over [3, 1, 2]. -/
theorem sortBy_head_sorted_permutation_witness :
    (∀ a b : Int, (fun a b : Int => decide (a < b)) a b = true →
      (fun a b : Int => decide (a < b)) b a = false) ∧
    (∀ a b c : Int, (fun a b : Int => decide (a < b)) a c = true →
      (fun a b : Int => decide (a < b)) a b = true ∨
      (fun a b : Int => decide (a < b)) b c = true) ∧
    ([Stage.Select (fun x : Int => x * x)] : List (Stage Int)) ≠ [] ∧
    ToListEv ⟨[Stage.Select (fun x : Int => x * x)]⟩ [3, 1, 2]
      ([9, 1, 4], ⟨[Stage.Select (fun x : Int => x * x)]⟩) ∧
    ∃ (l' : List Int) (co'' : Composer Int),
      ToListEv ⟨Stage.OrderBy (fun a b : Int => decide (a < b)) false []
          :: [Stage.Select (fun x : Int => x * x)]⟩ [3, 1, 2] (l', co'') ∧
      l'.Perm [9, 1, 4] ∧ List.Sorted (sortRel (fun a b : Int => decide (a < b))) l' := by
  have hasym : ∀ a b : Int, (fun a b : Int => decide (a < b)) a b = true →
      (fun a b : Int => decide (a < b)) b a = false := by
    intro a b h
    simp only [decide_eq_true_eq] at h
    simp only [decide_eq_false_iff_not]
    omega
  have hneg : ∀ a b c : Int, (fun a b : Int => decide (a < b)) a c = true →
      (fun a b : Int => decide (a < b)) a b = true ∨
      (fun a b : Int => decide (a < b)) b c = true := by
    intro a b c h
    simp only [decide_eq_true_eq] at h ⊢
    omega
  refine ⟨hasym, hneg, List.cons_ne_nil _ _, ⟨10, rfl⟩, ?_⟩
  exact sortBy_head_sorted_permutation Int _ hasym hneg
    [Stage.Select (fun x : Int => x * x)] [3, 1, 2] [9, 1, 4]
    ⟨[Stage.Select (fun x : Int => x * x)]⟩ (List.cons_ne_nil _ _) ⟨10, rfl⟩

/-! Claim C10 — termination.  The potential of a chain (buffered source
elements plus buffered sort results) strictly decreases with every
element produced, which bounds every loop. -/

/-- Remaining work stored in a stage: source elements not yet yielded and
buffered sort results not yet popped. -/
def Stage.potential {T : Type} : Stage T → Nat
  | .Iterate elems => elems.length
  | .OrderBy _ _ results => results.length
  | _ => 0

/-- Remaining work in a chain. -/
def chainPotential {T : Type} (c : List (Stage T)) : Nat :=
  (c.map Stage.potential).sum

theorem chainPotential_cons {T : Type} (s : Stage T) (rest : List (Stage T)) :
    chainPotential (s :: rest) = s.potential + chainPotential rest := by
  simp [chainPotential]

/-- Every produced element consumes one unit of potential; no pull ever
increases the potential. -/
theorem potential_decrease {T : Type} :
    ∀ n : Nat,
      (∀ (c : List (Stage T)) (r : Bool) (o : Option T) (c' : List (Stage T)),
        pullF n c r = .ok (o, c') →
        chainPotential c' + (if o.isSome then 1 else 0) ≤ chainPotential c) ∧
      (∀ (p : T → Bool) (c : List (Stage T)) (r : Bool) (o : Option T) (c' : List (Stage T)),
        whereLoopF n p c r = .ok (o, c') →
        chainPotential c' + (if o.isSome then 1 else 0) ≤ chainPotential c) ∧
      (∀ (c : List (Stage T)) (r : Bool) (l : List T) (c' : List (Stage T)),
        collectF n c r = .ok (l, c') →
        chainPotential c' + l.length ≤ chainPotential c) := by
  intro n
  induction n with
  | zero =>
    refine ⟨?_, ?_, ?_⟩
    · intro c r o c' h
      exact Except.noConfusion h
    · intro p c r o c' h
      exact Except.noConfusion h
    · intro c r l c' h
      exact Except.noConfusion h
  | succ n ih =>
    obtain ⟨ihp, ihw, ihc⟩ := ih
    refine ⟨?_, ?_, ?_⟩
    · intro c r o c' h
      match c with
      | [] => exact Except.noConfusion h
      | .Select f :: rest =>
        rw [pullF_select] at h
        split at h
        next e hrec => exact Except.noConfusion h
        next o₁ c₁ hrec =>
          have ho : o₁.map f = o := pairFst (Except.ok.inj h)
          have hc : Stage.Select f :: c₁ = c' := pairSnd (Except.ok.inj h)
          have := ihp rest r o₁ c₁ hrec
          rw [← hc, ← ho, chainPotential_cons, chainPotential_cons]
          cases o₁ <;> simpa [Stage.potential] using this
      | .Where p :: rest =>
        rw [pullF_where] at h
        split at h
        next e hrec => exact Except.noConfusion h
        next o₁ c₁ hrec =>
          have ho : o₁ = o := pairFst (Except.ok.inj h)
          have hc : Stage.Where p :: c₁ = c' := pairSnd (Except.ok.inj h)
          have := ihw p rest r o₁ c₁ hrec
          rw [← hc, ← ho, chainPotential_cons, chainPotential_cons]
          simpa [Stage.potential] using this
      | .Take rem cap :: rest =>
        rw [pullF_take] at h
        by_cases h0 : (if r then cap else rem) = 0
        · rw [if_pos h0] at h
          have ho : (none : Option T) = o := pairFst (Except.ok.inj h)
          have hc := pairSnd (Except.ok.inj h)
          rw [← hc, ← ho, chainPotential_cons, chainPotential_cons]
          simp [Stage.potential]
        · rw [if_neg h0] at h
          split at h
          next e hrec => exact Except.noConfusion h
          next c₁ hrec =>
            have ho : (none : Option T) = o := pairFst (Except.ok.inj h)
            have hc := pairSnd (Except.ok.inj h)
            have := ihp rest r none c₁ hrec
            rw [← hc, ← ho, chainPotential_cons, chainPotential_cons]
            simpa [Stage.potential] using this
          next x c₁ hrec =>
            have ho : (some x : Option T) = o := pairFst (Except.ok.inj h)
            have hc := pairSnd (Except.ok.inj h)
            have := ihp rest r (some x) c₁ hrec
            rw [← hc, ← ho, chainPotential_cons, chainPotential_cons]
            simpa [Stage.potential] using this
      | .OrderBy cmp pr res0 :: rest =>
        rw [pullF_orderBy] at h
        have hres1 : (if r then ([] : List T) else res0).length ≤ res0.length := by
          cases r <;> simp
        by_cases hpr : (if r then false else pr) = true
        · rw [if_pos hpr] at h
          match hb : (if r then ([] : List T) else res0) with
          | [] =>
            rw [hb] at h
            have ho : (none : Option T) = o := pairFst (Except.ok.inj h)
            have hc := pairSnd (Except.ok.inj h)
            rw [← hc, ← ho, chainPotential_cons, chainPotential_cons]
            simp [Stage.potential]
          | x :: xs =>
            rw [hb] at h
            have ho : (some x : Option T) = o := pairFst (Except.ok.inj h)
            have hc := pairSnd (Except.ok.inj h)
            have hlen : xs.length + 1 ≤ res0.length := by
              have := hres1
              rw [hb] at this
              simpa using this
            rw [← hc, ← ho, chainPotential_cons, chainPotential_cons]
            simp only [Stage.potential, Option.isSome_some, Option.isSome_none, if_true,
              Bool.false_eq_true, if_false, List.length_nil]
            omega
        · rw [if_neg hpr] at h
          split at h
          next e hrec => exact Except.noConfusion h
          next drained c₁ hrec =>
            have hcol := ihc rest r drained c₁ hrec
            have hsortlen : (stdSort cmp ((if r then ([] : List T) else res0) ++ drained)).length
                = (if r then ([] : List T) else res0).length + drained.length := by
              rw [(stdSort_perm cmp _).length_eq, List.length_append]
            split at h
            next hs =>
              have ho : (none : Option T) = o := pairFst (Except.ok.inj h)
              have hc := pairSnd (Except.ok.inj h)
              rw [← hc, ← ho, chainPotential_cons, chainPotential_cons]
              simp only [Stage.potential, Option.isSome_some, Option.isSome_none, if_true,
              Bool.false_eq_true, if_false, List.length_nil]
              omega
            next x xs hs =>
              have ho : (some x : Option T) = o := pairFst (Except.ok.inj h)
              have hc := pairSnd (Except.ok.inj h)
              have hlen : xs.length + 1 = (if r then ([] : List T) else res0).length + drained.length := by
                rw [← hsortlen, hs]
                simp
              rw [← hc, ← ho, chainPotential_cons, chainPotential_cons]
              simp only [Stage.potential, Option.isSome_some, Option.isSome_none, if_true,
              Bool.false_eq_true, if_false, List.length_nil]
              omega
      | .Iterate elems :: rest =>
        rw [pullF_iterate] at h
        match elems with
        | [] =>
          have ho : (none : Option T) = o := pairFst (Except.ok.inj h)
          have hc := pairSnd (Except.ok.inj h)
          rw [← hc, ← ho]
          simp
        | x :: xs =>
          have ho : (some x : Option T) = o := pairFst (Except.ok.inj h)
          have hc := pairSnd (Except.ok.inj h)
          rw [← hc, ← ho, chainPotential_cons, chainPotential_cons]
          simp only [Stage.potential, Option.isSome_some, if_true, List.length_cons]
          omega
    · intro p c r o c' h
      rw [whereLoopF_succ] at h
      split at h
      next e hrec => exact Except.noConfusion h
      next c₁ hrec =>
        have ho : (none : Option T) = o := pairFst (Except.ok.inj h)
        have hc : c₁ = c' := pairSnd (Except.ok.inj h)
        have := ihp c r none c₁ hrec
        rw [← hc, ← ho]
        simpa using this
      next x c₁ hrec =>
        have hx := ihp c r (some x) c₁ hrec
        by_cases hp : p x = true
        · rw [if_pos hp] at h
          have ho : (some x : Option T) = o := pairFst (Except.ok.inj h)
          have hc : c₁ = c' := pairSnd (Except.ok.inj h)
          rw [← hc, ← ho]
          simpa using hx
        · rw [if_neg hp] at h
          have := ihw p c₁ false o c' h
          simp only [Option.isSome_some, if_true] at hx
          omega
    · intro c r l c' h
      rw [collectF_succ] at h
      split at h
      next e hrec => exact Except.noConfusion h
      next c₁ hrec =>
        have hl : ([] : List T) = l := pairFst (Except.ok.inj h)
        have hc : c₁ = c' := pairSnd (Except.ok.inj h)
        have := ihp c r none c₁ hrec
        rw [← hc, ← hl]
        simpa using this
      next x c₁ hrec =>
        split at h
        next e hrec2 => exact Except.noConfusion h
        next l₂ c₂ hrec2 =>
          have hl : x :: l₂ = l := pairFst (Except.ok.inj h)
          have hc : c₂ = c' := pairSnd (Except.ok.inj h)
          have h1 := ihp c r (some x) c₁ hrec
          have h2 := ihc c₁ false l₂ c₂ hrec2
          simp only [Option.isSome_some, if_true] at h1
          rw [← hc, ← hl]
          simp only [List.length_cons]
          omega

/-- Every pull, filter loop and collection loop completes (does not run
out of fuel) for some fuel, by strong induction on the chain potential:
loop re-entries strictly consume potential. -/
theorem pull_complete {T : Type} :
    ∀ (M : Nat) (c : List (Stage T)), chainPotential c < M →
      (∀ r, ∃ n, pullF n c r ≠ .error .outOfFuel) ∧
      (∀ (p : T → Bool) (r : Bool), ∃ n, whereLoopF n p c r ≠ .error .outOfFuel) ∧
      (∀ r, ∃ n, collectF n c r ≠ .error .outOfFuel) := by
  intro M
  induction M using Nat.strong_induction_on with
  | _ M ihM =>
    intro c
    induction c with
    | nil =>
      intro _
      refine ⟨fun r => ⟨1, ?_⟩, fun p r => ⟨2, ?_⟩, fun r => ⟨2, ?_⟩⟩
      · rw [pullF_nil]
        simp
      · rw [whereLoopF_succ, pullF_nil]
        simp
      · rw [collectF_succ, pullF_nil]
        simp
    | cons s rest ihrest =>
      intro hM
      have hle : chainPotential rest ≤ chainPotential (s :: rest) := by
        rw [chainPotential_cons]
        omega
      obtain ⟨Arest, Brest, Drest⟩ := ihrest (lt_of_le_of_lt hle hM)
      have Acons : ∀ r, ∃ n, pullF n (s :: rest) r ≠ .error .outOfFuel := by
        intro r
        match s with
        | .Select f =>
          obtain ⟨n, hn⟩ := Arest r
          refine ⟨n + 1, ?_⟩
          rw [pullF_select]
          cases hv : pullF n rest r with
          | error e =>
            rw [hv] at hn
            simpa using hn
          | ok v =>
            obtain ⟨o, c₁⟩ := v
            simp
        | .Where p =>
          obtain ⟨n, hn⟩ := Brest p r
          refine ⟨n + 1, ?_⟩
          rw [pullF_where]
          cases hv : whereLoopF n p rest r with
          | error e =>
            rw [hv] at hn
            simpa using hn
          | ok v =>
            obtain ⟨o, c₁⟩ := v
            simp
        | .Take rem cap =>
          by_cases h0 : (if r then cap else rem) = 0
          · refine ⟨1, ?_⟩
            rw [pullF_take, if_pos h0]
            simp
          · obtain ⟨n, hn⟩ := Arest r
            refine ⟨n + 1, ?_⟩
            rw [pullF_take, if_neg h0]
            cases hv : pullF n rest r with
            | error e =>
              rw [hv] at hn
              simpa using hn
            | ok v =>
              obtain ⟨o, c₁⟩ := v
              cases o <;> simp
        | .OrderBy cmp pr res0 =>
          by_cases hpr : (if r then false else pr) = true
          · refine ⟨1, ?_⟩
            rw [pullF_orderBy, if_pos hpr]
            split <;> simp
          · obtain ⟨n, hn⟩ := Drest r
            refine ⟨n + 1, ?_⟩
            rw [pullF_orderBy, if_neg hpr]
            cases hv : collectF n rest r with
            | error e =>
              rw [hv] at hn
              simpa using hn
            | ok v =>
              obtain ⟨drained, c₁⟩ := v
              dsimp only
              split <;> simp
        | .Iterate elems =>
          refine ⟨1, ?_⟩
          rw [pullF_iterate]
          match elems with
          | [] => simp
          | x :: xs => simp
      refine ⟨Acons, ?_, ?_⟩
      · intro p r
        obtain ⟨n, hn⟩ := Acons r
        cases hv : pullF n (s :: rest) r with
        | error e =>
          refine ⟨n + 1, ?_⟩
          rw [whereLoopF_succ, hv]
          rw [hv] at hn
          simpa using hn
        | ok v =>
          obtain ⟨o, c₁⟩ := v
          cases o with
          | none =>
            refine ⟨n + 1, ?_⟩
            rw [whereLoopF_succ, hv]
            simp
          | some x =>
            by_cases hp : p x = true
            · refine ⟨n + 1, ?_⟩
              rw [whereLoopF_succ, hv]
              dsimp only
              rw [if_pos hp]
              simp
            · have hdec : chainPotential c₁ < chainPotential (s :: rest) := by
                have := (potential_decrease n).1 (s :: rest) r (some x) c₁ hv
                simp only [Option.isSome_some, if_true] at this
                omega
              obtain ⟨-, Bc₁, -⟩ := ihM (chainPotential c₁ + 1)
                (by omega) c₁ (by omega)
              obtain ⟨m, hm⟩ := Bc₁ p false
              refine ⟨max n m + 1, ?_⟩
              have hv' : pullF (max n m) (s :: rest) r = .ok (some x, c₁) :=
                (pullF_stable (Nat.le_max_left n m) (by rw [hv]; simp)).trans hv
              rw [whereLoopF_succ, hv']
              dsimp only
              rw [if_neg (by rw [eq_false_of_ne_true hp]; exact Bool.false_ne_true)]
              rw [whereLoopF_stable (Nat.le_max_right n m) hm]
              exact hm
      · intro r
        obtain ⟨n, hn⟩ := Acons r
        cases hv : pullF n (s :: rest) r with
        | error e =>
          refine ⟨n + 1, ?_⟩
          rw [collectF_succ, hv]
          rw [hv] at hn
          simpa using hn
        | ok v =>
          obtain ⟨o, c₁⟩ := v
          cases o with
          | none =>
            refine ⟨n + 1, ?_⟩
            rw [collectF_succ, hv]
            simp
          | some x =>
            have hdec : chainPotential c₁ < chainPotential (s :: rest) := by
              have := (potential_decrease n).1 (s :: rest) r (some x) c₁ hv
              simp only [Option.isSome_some, if_true] at this
              omega
            obtain ⟨-, -, Dc₁⟩ := ihM (chainPotential c₁ + 1)
              (by omega) c₁ (by omega)
            obtain ⟨m, hm⟩ := Dc₁ false
            refine ⟨max n m + 1, ?_⟩
            have hv' : pullF (max n m) (s :: rest) r = .ok (some x, c₁) :=
              (pullF_stable (Nat.le_max_left n m) (by rw [hv]; simp)).trans hv
            rw [collectF_succ, hv']
            dsimp only
            rw [collectF_stable (Nat.le_max_right n m) hm]
            cases hw : collectF m c₁ false with
            | error e =>
              rw [hw] at hm
              simpa using hm
            | ok w =>
              obtain ⟨l, c₂⟩ := w
              simp

/-- Claim C10: materialization terminates on every composer and every
finite input — some fuel yields a result that is not the out-of-fuel
artifact, and the result is stable under all larger fuels. -/
theorem materialize_terminates :
    ∀ (T : Type) (co : Composer T) (input : List T),
      ∃ n, toListF n co input ≠ .error .outOfFuel ∧
        ∀ m, n ≤ m → toListF m co input = toListF n co input := by
  intro T co input
  match hc : co.chain with
  | [] =>
    refine ⟨1, ?_, ?_⟩
    · rw [show toListF 1 co input = .error .nullDeref from by rw [toListF, hc]]
      simp
    · intro m hm
      rw [show toListF m co input = .error .nullDeref from by rw [toListF, hc],
        show toListF 1 co input = .error .nullDeref from by rw [toListF, hc]]
  | s :: c =>
    obtain ⟨-, -, D⟩ := pull_complete (chainPotential ((s :: c) ++ [.Iterate input]) + 1)
      ((s :: c) ++ [.Iterate input]) (by omega)
    obtain ⟨n, hn⟩ := D true
    have hne : toListF n co input ≠ .error .outOfFuel := by
      rw [show toListF n co input
          = (collectF n ((s :: c) ++ [.Iterate input]) true).bind
              (fun v => .ok (v.1, ⟨v.2.take (s :: c).length⟩)) from by rw [toListF, hc]; rfl]
      cases hv : collectF n ((s :: c) ++ [.Iterate input]) true with
      | error e =>
        rw [hv] at hn
        rw [except_bind_error]
        exact errNe hn
      | ok v =>
        obtain ⟨l, d⟩ := v
        rw [except_bind_ok]
        simp
    exact ⟨n, hne, fun m hm => toListF_stable hm hne⟩

/-! Claims C1 and C6 — clone and re-run independence.  A pull with the
fresh-run flag behaves identically on a chain and on its deep copy
(run state reset): every stage resets its run state before using it.  The
only stages that can hide stale upstream state from the reset are a
`Take` whose capacity is `0` (it never pulls upstream again) and an
`Iterate` (it never pulls upstream at all); chains that agree up to such
a shield stage stay in lockstep for the rest of the run. -/

/-- A stage that never consults its upstream on a non-reset pull. -/
def isShield {T : Type} (s : Stage T) : Prop :=
  (∃ cap, s = .Take 0 cap) ∨ (∃ elems, s = .Iterate elems)

/-- Two chains that agree, or agree down to a common shield stage and
differ arbitrarily beyond it (the part beyond is never pulled again). -/
def chainSim {T : Type} (c c' : List (Stage T)) : Prop :=
  c = c' ∨ ∃ (d u u' : List (Stage T)) (s : Stage T),
    isShield s ∧ c = d ++ s :: u ∧ c' = d ++ s :: u'

theorem chainSim_refl {T : Type} (c : List (Stage T)) : chainSim c c := Or.inl rfl

theorem chainSim_cons {T : Type} (s : Stage T) {u u' : List (Stage T)}
    (h : chainSim u u') : chainSim (s :: u) (s :: u') := by
  rcases h with rfl | ⟨d, v, v', sh, hsh, rfl, rfl⟩
  · exact Or.inl rfl
  · exact Or.inr ⟨s :: d, v, v', sh, hsh, rfl, rfl⟩

/-- Result relation for single pulls: same error, or same element with
`chainSim`-related updated chains. -/
def pullRes {T : Type} (a b : Except Err (Option T × List (Stage T))) : Prop :=
  (∃ e, a = .error e ∧ b = .error e) ∨
  (∃ o c c', a = .ok (o, c) ∧ b = .ok (o, c') ∧ chainSim c c')

/-- Result relation for collection loops. -/
def collectRes {T : Type} (a b : Except Err (List T × List (Stage T))) : Prop :=
  (∃ e, a = .error e ∧ b = .error e) ∨
  (∃ l c c', a = .ok (l, c) ∧ b = .ok (l, c') ∧ chainSim c c')

theorem pullRes_refl {T : Type} (a : Except Err (Option T × List (Stage T))) : pullRes a a := by
  cases a with
  | error e => exact Or.inl ⟨e, rfl, rfl⟩
  | ok v => exact Or.inr ⟨v.1, v.2, v.2, rfl, rfl, chainSim_refl v.2⟩

theorem collectRes_refl {T : Type} (a : Except Err (List T × List (Stage T))) :
    collectRes a a := by
  cases a with
  | error e => exact Or.inl ⟨e, rfl, rfl⟩
  | ok v => exact Or.inr ⟨v.1, v.2, v.2, rfl, rfl, chainSim_refl v.2⟩

theorem pullRes_map_fst {T : Type} {a b : Except Err (Option T × List (Stage T))}
    (h : pullRes a b) : a.map Prod.fst = b.map Prod.fst := by
  rcases h with ⟨e, rfl, rfl⟩ | ⟨o, c, c', rfl, rfl, h⟩ <;> rfl

theorem collectRes_map_fst {T : Type} {a b : Except Err (List T × List (Stage T))}
    (h : collectRes a b) : a.map Prod.fst = b.map Prod.fst := by
  rcases h with ⟨e, rfl, rfl⟩ | ⟨l, c, c', rfl, rfl, h⟩ <;> rfl

/-- Non-reset pulls keep `chainSim`-related chains in lockstep. -/
theorem sim_false {T : Type} :
    ∀ n : Nat,
      (∀ c c' : List (Stage T), chainSim c c' →
        pullRes (pullF n c false) (pullF n c' false)) ∧
      (∀ (p : T → Bool) (c c' : List (Stage T)), chainSim c c' →
        pullRes (whereLoopF n p c false) (whereLoopF n p c' false)) ∧
      (∀ c c' : List (Stage T), chainSim c c' →
        collectRes (collectF n c false) (collectF n c' false)) := by
  intro n
  induction n with
  | zero =>
    refine ⟨?_, ?_, ?_⟩
    · intro c c' _
      exact Or.inl ⟨.outOfFuel, rfl, rfl⟩
    · intro p c c' _
      exact Or.inl ⟨.outOfFuel, rfl, rfl⟩
    · intro c c' _
      exact Or.inl ⟨.outOfFuel, rfl, rfl⟩
  | succ n ih =>
    obtain ⟨ihp, ihw, ihc⟩ := ih
    have step : ∀ c c' : List (Stage T), chainSim c c' →
        pullRes (pullF (n + 1) c false) (pullF (n + 1) c' false) := by
      intro c c' hR
      rcases hR with rfl | ⟨d, u, u', sh, hsh, rfl, rfl⟩
      · exact pullRes_refl _
      · match d with
        | [] =>
          rcases hsh with ⟨cap, rfl⟩ | ⟨elems, rfl⟩
          · rw [List.nil_append, List.nil_append, pullF_take, pullF_take]
            simp only [Bool.false_eq_true, if_false, if_pos rfl]
            exact Or.inr ⟨none, _, _, rfl, rfl,
              Or.inr ⟨[], u, u', .Take 0 cap, Or.inl ⟨cap, rfl⟩, rfl, rfl⟩⟩
          · rw [List.nil_append, List.nil_append, pullF_iterate, pullF_iterate]
            match elems with
            | [] =>
              exact Or.inr ⟨none, _, _, rfl, rfl,
                Or.inr ⟨[], u, u', .Iterate [], Or.inr ⟨[], rfl⟩, rfl, rfl⟩⟩
            | x :: xs =>
              exact Or.inr ⟨some x, _, _, rfl, rfl,
                Or.inr ⟨[], u, u', .Iterate xs, Or.inr ⟨xs, rfl⟩, rfl, rfl⟩⟩
        | s₀ :: d₁ =>
          have hRu : chainSim (d₁ ++ sh :: u) (d₁ ++ sh :: u') :=
            Or.inr ⟨d₁, u, u', sh, hsh, rfl, rfl⟩
          rw [List.cons_append, List.cons_append]
          match s₀ with
          | .Select f =>
            rw [pullF_select, pullF_select]
            rcases ihp _ _ hRu with ⟨e, h1, h2⟩ | ⟨o, c₁, c₁', h1, h2, hRc⟩
            · rw [h1, h2]
              exact Or.inl ⟨e, rfl, rfl⟩
            · rw [h1, h2]
              exact Or.inr ⟨o.map f, _, _, rfl, rfl, chainSim_cons _ hRc⟩
          | .Where p =>
            rw [pullF_where, pullF_where]
            rcases ihw p _ _ hRu with ⟨e, h1, h2⟩ | ⟨o, c₁, c₁', h1, h2, hRc⟩
            · rw [h1, h2]
              exact Or.inl ⟨e, rfl, rfl⟩
            · rw [h1, h2]
              exact Or.inr ⟨o, _, _, rfl, rfl, chainSim_cons _ hRc⟩
          | .Take rem cap =>
            rw [pullF_take, pullF_take]
            simp only [Bool.false_eq_true, if_false]
            by_cases h0 : rem = 0
            · rw [if_pos h0, if_pos h0]
              exact Or.inr ⟨none, _, _, rfl, rfl, chainSim_cons _ hRu⟩
            · rw [if_neg h0, if_neg h0]
              rcases ihp _ _ hRu with ⟨e, h1, h2⟩ | ⟨o, c₁, c₁', h1, h2, hRc⟩
              · rw [h1, h2]
                exact Or.inl ⟨e, rfl, rfl⟩
              · rw [h1, h2]
                cases o with
                | none => exact Or.inr ⟨none, _, _, rfl, rfl, chainSim_cons _ hRc⟩
                | some x => exact Or.inr ⟨some x, _, _, rfl, rfl, chainSim_cons _ hRc⟩
          | .OrderBy cmp pr res =>
            rw [pullF_orderBy, pullF_orderBy]
            simp only [Bool.false_eq_true, if_false]
            by_cases hpr : pr = true
            · rw [if_pos hpr, if_pos hpr]
              match res with
              | [] => exact Or.inr ⟨none, _, _, rfl, rfl, chainSim_cons _ hRu⟩
              | x :: xs => exact Or.inr ⟨some x, _, _, rfl, rfl, chainSim_cons _ hRu⟩
            · rw [if_neg hpr, if_neg hpr]
              rcases ihc _ _ hRu with ⟨e, h1, h2⟩ | ⟨l, c₁, c₁', h1, h2, hRc⟩
              · rw [h1, h2]
                exact Or.inl ⟨e, rfl, rfl⟩
              · rw [h1, h2]
                dsimp only
                match stdSort cmp (res ++ l) with
                | [] => exact Or.inr ⟨none, _, _, rfl, rfl, chainSim_cons _ hRc⟩
                | x :: xs => exact Or.inr ⟨some x, _, _, rfl, rfl, chainSim_cons _ hRc⟩
          | .Iterate elems =>
            rw [pullF_iterate, pullF_iterate]
            match elems with
            | [] => exact Or.inr ⟨none, _, _, rfl, rfl, chainSim_cons _ hRu⟩
            | x :: xs => exact Or.inr ⟨some x, _, _, rfl, rfl, chainSim_cons _ hRu⟩
    refine ⟨step, ?_, ?_⟩
    · intro p c c' hR
      rw [whereLoopF_succ, whereLoopF_succ]
      rcases ihp _ _ hR with ⟨e, h1, h2⟩ | ⟨o, c₁, c₁', h1, h2, hRc⟩
      · rw [h1, h2]
        exact Or.inl ⟨e, rfl, rfl⟩
      · rw [h1, h2]
        cases o with
        | none => exact Or.inr ⟨none, _, _, rfl, rfl, hRc⟩
        | some x =>
          dsimp only
          by_cases hp : p x = true
          · rw [if_pos hp, if_pos hp]
            exact Or.inr ⟨some x, _, _, rfl, rfl, hRc⟩
          · rw [if_neg hp, if_neg hp]
            exact ihw p _ _ hRc
    · intro c c' hR
      rw [collectF_succ, collectF_succ]
      rcases ihp _ _ hR with ⟨e, h1, h2⟩ | ⟨o, c₁, c₁', h1, h2, hRc⟩
      · rw [h1, h2]
        exact Or.inl ⟨e, rfl, rfl⟩
      · rw [h1, h2]
        cases o with
        | none => exact Or.inr ⟨[], _, _, rfl, rfl, hRc⟩
        | some x =>
          dsimp only
          rcases ihc _ _ hRc with ⟨e, h3, h4⟩ | ⟨l, c₂, c₂', h3, h4, hRc2⟩
          · rw [h3, h4]
            exact Or.inl ⟨e, rfl, rfl⟩
          · rw [h3, h4]
            exact Or.inr ⟨x :: l, _, _, rfl, rfl, hRc2⟩

theorem if_cond_true {A : Sort _} (a b : A) : (if true = true then a else b) = a := rfl

theorem if_cond_false {A : Sort _} (a b : A) : (if false = true then a else b) = b := rfl

/-- A fresh-run pull behaves on any chain exactly as on its deep copy
(run state reset): every stage resets its run state on the reset pull
before reading it, except behind a shield stage, which hides its
upstream from the rest of the run altogether. -/
theorem sim_reset {T : Type} :
    ∀ n : Nat,
      (∀ c : List (Stage T),
        pullRes (pullF n c true) (pullF n (deepCopyChain c) true)) ∧
      (∀ (p : T → Bool) (c : List (Stage T)),
        pullRes (whereLoopF n p c true) (whereLoopF n p (deepCopyChain c) true)) ∧
      (∀ c : List (Stage T),
        collectRes (collectF n c true) (collectF n (deepCopyChain c) true)) := by
  intro n
  induction n with
  | zero =>
    refine ⟨?_, ?_, ?_⟩
    · intro c
      exact Or.inl ⟨.outOfFuel, rfl, rfl⟩
    · intro p c
      exact Or.inl ⟨.outOfFuel, rfl, rfl⟩
    · intro c
      exact Or.inl ⟨.outOfFuel, rfl, rfl⟩
  | succ n ih =>
    obtain ⟨ihp, ihw, ihc⟩ := ih
    have step : ∀ c : List (Stage T),
        pullRes (pullF (n + 1) c true) (pullF (n + 1) (deepCopyChain c) true) := by
      intro c
      match c with
      | [] => exact pullRes_refl _
      | .Select f :: rest =>
        rw [show deepCopyChain (.Select f :: rest) = .Select f :: deepCopyChain rest from rfl,
          pullF_select, pullF_select]
        rcases ihp rest with ⟨e, h1, h2⟩ | ⟨o, c₁, c₁', h1, h2, hRc⟩
        · rw [h1, h2]
          exact Or.inl ⟨e, rfl, rfl⟩
        · rw [h1, h2]
          exact Or.inr ⟨o.map f, _, _, rfl, rfl, chainSim_cons _ hRc⟩
      | .Where p :: rest =>
        rw [show deepCopyChain (.Where p :: rest) = .Where p :: deepCopyChain rest from rfl,
          pullF_where, pullF_where]
        rcases ihw p rest with ⟨e, h1, h2⟩ | ⟨o, c₁, c₁', h1, h2, hRc⟩
        · rw [h1, h2]
          exact Or.inl ⟨e, rfl, rfl⟩
        · rw [h1, h2]
          exact Or.inr ⟨o, _, _, rfl, rfl, chainSim_cons _ hRc⟩
      | .Take rem cap :: rest =>
        rw [show deepCopyChain (.Take rem cap :: rest)
            = .Take cap cap :: deepCopyChain rest from rfl, pullF_take, pullF_take]
        simp only [if_true]
        by_cases h0 : cap = 0
        · subst h0
          rw [if_pos rfl, if_pos rfl]
          exact Or.inr ⟨none, _, _, rfl, rfl,
            Or.inr ⟨[], rest, deepCopyChain rest, .Take 0 0, Or.inl ⟨0, rfl⟩, rfl, rfl⟩⟩
        · rw [if_neg h0, if_neg h0]
          rcases ihp rest with ⟨e, h1, h2⟩ | ⟨o, c₁, c₁', h1, h2, hRc⟩
          · rw [h1, h2]
            exact Or.inl ⟨e, rfl, rfl⟩
          · rw [h1, h2]
            cases o with
            | none => exact Or.inr ⟨none, _, _, rfl, rfl, chainSim_cons _ hRc⟩
            | some x => exact Or.inr ⟨some x, _, _, rfl, rfl, chainSim_cons _ hRc⟩
      | .OrderBy cmp pr res :: rest =>
        rw [show deepCopyChain (.OrderBy cmp pr res :: rest)
            = .OrderBy cmp false [] :: deepCopyChain rest from rfl,
          pullF_orderBy, pullF_orderBy]
        simp only [if_true, Bool.false_eq_true, if_false]
        rcases ihc rest with ⟨e, h1, h2⟩ | ⟨l, c₁, c₁', h1, h2, hRc⟩
        · rw [h1, h2]
          exact Or.inl ⟨e, rfl, rfl⟩
        · rw [h1, h2]
          dsimp only
          match stdSort cmp ([] ++ l) with
          | [] => exact Or.inr ⟨none, _, _, rfl, rfl, chainSim_cons _ hRc⟩
          | x :: xs => exact Or.inr ⟨some x, _, _, rfl, rfl, chainSim_cons _ hRc⟩
      | .Iterate elems :: rest =>
        rw [show deepCopyChain (.Iterate elems :: rest)
            = .Iterate elems :: deepCopyChain rest from rfl, pullF_iterate, pullF_iterate]
        match elems with
        | [] =>
          exact Or.inr ⟨none, _, _, rfl, rfl,
            Or.inr ⟨[], rest, deepCopyChain rest, .Iterate [], Or.inr ⟨[], rfl⟩, rfl, rfl⟩⟩
        | x :: xs =>
          exact Or.inr ⟨some x, _, _, rfl, rfl,
            Or.inr ⟨[], rest, deepCopyChain rest, .Iterate xs, Or.inr ⟨xs, rfl⟩, rfl, rfl⟩⟩
    refine ⟨step, ?_, ?_⟩
    · intro p c
      rw [whereLoopF_succ, whereLoopF_succ]
      rcases ihp c with ⟨e, h1, h2⟩ | ⟨o, c₁, c₁', h1, h2, hRc⟩
      · rw [h1, h2]
        exact Or.inl ⟨e, rfl, rfl⟩
      · rw [h1, h2]
        cases o with
        | none => exact Or.inr ⟨none, _, _, rfl, rfl, hRc⟩
        | some x =>
          dsimp only
          by_cases hp : p x = true
          · rw [if_pos hp, if_pos hp]
            exact Or.inr ⟨some x, _, _, rfl, rfl, hRc⟩
          · rw [if_neg hp, if_neg hp]
            exact (sim_false n).2.1 p _ _ hRc
    · intro c
      rw [collectF_succ, collectF_succ]
      rcases ihp c with ⟨e, h1, h2⟩ | ⟨o, c₁, c₁', h1, h2, hRc⟩
      · rw [h1, h2]
        exact Or.inl ⟨e, rfl, rfl⟩
      · rw [h1, h2]
        cases o with
        | none => exact Or.inr ⟨[], _, _, rfl, rfl, hRc⟩
        | some x =>
          dsimp only
          rcases (sim_false n).2.2 _ _ hRc with ⟨e, h3, h4⟩ | ⟨l, c₂, c₂', h3, h4, hRc2⟩
          · rw [h3, h4]
            exact Or.inl ⟨e, rfl, rfl⟩
          · rw [h3, h4]
            exact Or.inr ⟨x :: l, _, _, rfl, rfl, hRc2⟩

theorem deepCopy_idem {T : Type} (c : List (Stage T)) :
    deepCopyChain (deepCopyChain c) = deepCopyChain c := by
  induction c with
  | nil => rfl
  | cons s rest ih =>
    cases s <;> simp [deepCopyChain, Stage.deepCopy] at ih ⊢ <;> exact ih

theorem deepCopyChain_append {T : Type} (a b : List (Stage T)) :
    deepCopyChain (a ++ b) = deepCopyChain a ++ deepCopyChain b :=
  List.map_append Stage.deepCopy a b

theorem toListOut_collect {T : Type} (m : Nat) (s : Stage T) (c : List (Stage T))
    (input : List T) :
    toListOutF m ⟨s :: c⟩ input
      = (collectF m ((s :: c) ++ [.Iterate input]) true).map Prod.fst := by
  rw [toListOutF,
    show toListF m (⟨s :: c⟩ : Composer T) input
      = (collectF m ((s :: c) ++ [.Iterate input]) true).bind
          (fun v => .ok (v.1, ⟨v.2.take (s :: c).length⟩)) from rfl]
  cases h : collectF m ((s :: c) ++ [.Iterate input]) true with
  | error e => rfl
  | ok v => rfl

theorem toListOut_copy_eq {T : Type} (m : Nat) (A : Composer T) (input : List T) :
    toListOutF m (Composer.copy A) input = toListOutF m A input := by
  obtain ⟨ch⟩ := A
  match ch with
  | [] => rfl
  | s :: c =>
    have h1 : Composer.copy ⟨s :: c⟩ = (⟨Stage.deepCopy s :: deepCopyChain c⟩ : Composer T) := rfl
    have hmid := (sim_reset m).2.2 ((s :: c) ++ [.Iterate input])
    have hmid2 := (sim_reset m).2.2 ((Stage.deepCopy s :: deepCopyChain c) ++ [.Iterate input])
    have hdc : deepCopyChain ((Stage.deepCopy s :: deepCopyChain c) ++ [.Iterate input])
        = deepCopyChain ((s :: c) ++ [.Iterate input]) := by
      rw [deepCopyChain_append, deepCopyChain_append,
        show deepCopyChain (Stage.deepCopy s :: deepCopyChain c)
          = deepCopyChain (deepCopyChain (s :: c)) from rfl, deepCopy_idem]
    rw [hdc] at hmid2
    rw [h1, toListOut_collect, toListOut_collect]
    exact (collectRes_map_fst hmid2).trans (collectRes_map_fst hmid).symm

/-- Claim C1: copying a `Composer` deep-clones the whole chain with run
state reset (`deepCopyChain`); appending only re-heads the composer it is
called on, leaving the (independent) copied chain value untouched; and
the clone materializes every input exactly as the original would. -/
theorem composer_copy_clone_independence :
    ∀ (T : Type) (A : Composer T) (s : Stage T) (input : List T),
      (Composer.copy A).chain = deepCopyChain A.chain ∧
      (A.append s).chain = s :: A.chain ∧
      (Composer.copy (A.append s)).chain = Stage.deepCopy s :: (Composer.copy A).chain ∧
      (∀ m, toListOutF m (Composer.copy A) input = toListOutF m A input) :=
  fun _ A _ input => ⟨rfl, rfl, rfl, fun m => toListOut_copy_eq m A input⟩

/-- Chain-shape with the `Iterate` cursor forgotten: what is invariant
across pulls within a run. -/
def Stage.skeleton {T : Type} : Stage T → Stage T
  | .Select f => .Select f
  | .Where p => .Where p
  | .Take _ cap => .Take cap cap
  | .OrderBy cmp _ _ => .OrderBy cmp false []
  | .Iterate _ => .Iterate []

/-- Source-adapter test used to state that composer chains built through
the public interface contain no `Iterate` stage. -/
def Stage.isIterate {T : Type} : Stage T → Bool
  | .Iterate _ => true
  | _ => false

/-- Pulls mutate only run state: the skeleton of the chain is invariant. -/
theorem skeleton_preserved {T : Type} :
    ∀ n : Nat,
      (∀ (c : List (Stage T)) (r : Bool) (o : Option T) (c' : List (Stage T)),
        pullF n c r = .ok (o, c') → c'.map Stage.skeleton = c.map Stage.skeleton) ∧
      (∀ (p : T → Bool) (c : List (Stage T)) (r : Bool) (o : Option T) (c' : List (Stage T)),
        whereLoopF n p c r = .ok (o, c') → c'.map Stage.skeleton = c.map Stage.skeleton) ∧
      (∀ (c : List (Stage T)) (r : Bool) (l : List T) (c' : List (Stage T)),
        collectF n c r = .ok (l, c') → c'.map Stage.skeleton = c.map Stage.skeleton) := by
  intro n
  induction n with
  | zero =>
    refine ⟨?_, ?_, ?_⟩
    · intro c r o c' h
      exact Except.noConfusion h
    · intro p c r o c' h
      exact Except.noConfusion h
    · intro c r l c' h
      exact Except.noConfusion h
  | succ n ih =>
    obtain ⟨ihp, ihw, ihc⟩ := ih
    refine ⟨?_, ?_, ?_⟩
    · intro c r o c' h
      match c with
      | [] => exact Except.noConfusion h
      | .Select f :: rest =>
        rw [pullF_select] at h
        split at h
        next e hrec => exact Except.noConfusion h
        next o₁ c₁ hrec =>
          rw [← pairSnd (Except.ok.inj h)]
          simp only [List.map_cons]
          rw [ihp rest r o₁ c₁ hrec]
      | .Where p :: rest =>
        rw [pullF_where] at h
        split at h
        next e hrec => exact Except.noConfusion h
        next o₁ c₁ hrec =>
          rw [← pairSnd (Except.ok.inj h)]
          simp only [List.map_cons]
          rw [ihw p rest r o₁ c₁ hrec]
      | .Take rem cap :: rest =>
        rw [pullF_take] at h
        by_cases h0 : (if r then cap else rem) = 0
        · rw [if_pos h0] at h
          rw [← pairSnd (Except.ok.inj h)]
          simp [Stage.skeleton]
        · rw [if_neg h0] at h
          split at h
          next e hrec => exact Except.noConfusion h
          next c₁ hrec =>
            rw [← pairSnd (Except.ok.inj h)]
            simp only [List.map_cons, Stage.skeleton]
            rw [ihp rest r none c₁ hrec]
          next x c₁ hrec =>
            rw [← pairSnd (Except.ok.inj h)]
            simp only [List.map_cons, Stage.skeleton]
            rw [ihp rest r (some x) c₁ hrec]
      | .OrderBy cmp pr res0 :: rest =>
        rw [pullF_orderBy] at h
        by_cases hpr : (if r then false else pr) = true
        · rw [if_pos hpr] at h
          split at h
          next =>
            rw [← pairSnd (Except.ok.inj h)]
            simp [Stage.skeleton]
          next x xs heq =>
            rw [← pairSnd (Except.ok.inj h)]
            simp [Stage.skeleton]
        · rw [if_neg hpr] at h
          split at h
          next e hrec => exact Except.noConfusion h
          next drained c₁ hrec =>
            split at h
            next hsort =>
              rw [← pairSnd (Except.ok.inj h)]
              simp only [List.map_cons, Stage.skeleton]
              rw [ihc rest r drained c₁ hrec]
            next x xs hsort =>
              rw [← pairSnd (Except.ok.inj h)]
              simp only [List.map_cons, Stage.skeleton]
              rw [ihc rest r drained c₁ hrec]
      | .Iterate elems :: rest =>
        rw [pullF_iterate] at h
        match elems with
        | [] =>
          rw [← pairSnd (Except.ok.inj h)]
        | x :: xs =>
          rw [← pairSnd (Except.ok.inj h)]
          simp [Stage.skeleton]
    · intro p c r o c' h
      rw [whereLoopF_succ] at h
      split at h
      next e hrec => exact Except.noConfusion h
      next c₁ hrec =>
        rw [← pairSnd (Except.ok.inj h)]
        exact ihp c r none c₁ hrec
      next x c₁ hrec =>
        by_cases hp : p x = true
        · rw [if_pos hp] at h
          rw [← pairSnd (Except.ok.inj h)]
          exact ihp c r (some x) c₁ hrec
        · rw [if_neg hp] at h
          exact (ihw p c₁ false o c' h).trans (ihp c r (some x) c₁ hrec)
    · intro c r l c' h
      rw [collectF_succ] at h
      split at h
      next e hrec => exact Except.noConfusion h
      next c₁ hrec =>
        rw [← pairSnd (Except.ok.inj h)]
        exact ihp c r none c₁ hrec
      next x c₁ hrec =>
        split at h
        next e hrec2 => exact Except.noConfusion h
        next l₂ c₂ hrec2 =>
          rw [← pairSnd (Except.ok.inj h)]
          exact (ihc c₁ false l₂ c₂ hrec2).trans (ihp c r (some x) c₁ hrec)

theorem deepCopy_eq_of_skeleton_eq {T : Type} :
    ∀ (u v : List (Stage T)), (∀ s ∈ v, Stage.isIterate s = false) →
      u.map Stage.skeleton = v.map Stage.skeleton → deepCopyChain u = deepCopyChain v := by
  intro u
  induction u with
  | nil =>
    intro v _ h
    match v with
    | [] => rfl
    | s :: v' => exact absurd h (by simp)
  | cons a u' ih =>
    intro v hni h
    match v with
    | [] => exact absurd h (by simp)
    | b :: v' =>
      simp only [List.map_cons, List.cons.injEq] at h
      have hb := hni b (List.mem_cons_self b v')
      have hrest := ih v' (fun s hs => hni s (List.mem_cons_of_mem b hs)) h.2
      have hhead : Stage.deepCopy a = Stage.deepCopy b := by
        cases a <;> cases b <;>
          first
          | exact h.1
          | exact Stage.noConfusion h.1
          | exact Bool.noConfusion hb
      rw [show deepCopyChain (a :: u') = Stage.deepCopy a :: deepCopyChain u' from rfl,
        show deepCopyChain (b :: v') = Stage.deepCopy b :: deepCopyChain v' from rfl,
        hhead, hrest]

/-- Two nonempty chains with equal deep copies materialize every input
identically: a resetting run only ever sees the reset (deep-copied) state. -/
theorem toListOut_of_dcEq {T : Type} {u v : List (Stage T)} (hu : u ≠ []) (hv : v ≠ [])
    (hdc : deepCopyChain u = deepCopyChain v) (m : Nat) (input : List T) :
    toListOutF m ⟨u⟩ input = toListOutF m ⟨v⟩ input := by
  match u, v with
  | [], _ => exact absurd rfl hu
  | _ :: _, [] => exact absurd rfl hv
  | a :: u', b :: v' =>
    have hmidA := (sim_reset m).2.2 ((a :: u') ++ [.Iterate input])
    have hmidB := (sim_reset m).2.2 ((b :: v') ++ [.Iterate input])
    have hmid : deepCopyChain ((a :: u') ++ [.Iterate input])
        = deepCopyChain ((b :: v') ++ [.Iterate input]) := by
      rw [deepCopyChain_append, deepCopyChain_append, hdc]
    rw [hmid] at hmidA
    rw [toListOut_collect, toListOut_collect]
    exact (collectRes_map_fst hmidA).trans (collectRes_map_fst hmidB).symm

/-- Claim C6: a `ToList` run is self-cleaning. After a successful run on a
first input, the surviving composer (the chain with the temporary source
detached) has the original chain length, deep-copies to the same
run-state-reset chain as the original, and every later `ToList` on any
second input returns exactly what the original chain would return on that
input: no run state from the first call leaks into the second. -/
theorem rerun_independence :
    ∀ (T : Type) (c : List (Stage T)),
      (∀ s ∈ c, Stage.isIterate s = false) →
      ∀ (i₁ i₂ : List T) (n : Nat) (out₁ : List T) (co₁ : Composer T),
        toListF n ⟨c⟩ i₁ = .ok (out₁, co₁) →
        co₁.chain.length = c.length ∧
        deepCopyChain co₁.chain = deepCopyChain c ∧
        ∀ m, toListOutF m co₁ i₂ = toListOutF m (⟨c⟩ : Composer T) i₂ := by
  intro T c hni i₁ i₂ n out₁ co₁ h
  match c, hni with
  | [], _ =>
    have hbad : (Except.error Err.nullDeref : Except Err (List T × Composer T))
        = .ok (out₁, co₁) := h
    exact Except.noConfusion hbad
  | s :: cr, hni =>
    obtain ⟨d, hcoll, hco⟩ := toList_inv h
    have hskel := (skeleton_preserved n).2.2 ((s :: cr) ++ [.Iterate i₁]) true out₁ d hcoll
    have hdlen : d.length = (s :: cr).length + 1 := by
      have hl := congrArg List.length hskel
      simpa using hl
    have hlen : (d.take (s :: cr).length).length = (s :: cr).length := by
      rw [List.length_take, hdlen]
      omega
    have hskel2 : (d.take (s :: cr).length).map Stage.skeleton
        = (s :: cr).map Stage.skeleton := by
      rw [List.map_take, hskel, List.map_append,
        show (s :: cr).length = ((s :: cr).map Stage.skeleton).length from
          (List.length_map (s :: cr) Stage.skeleton).symm,
        List.take_left]
    have hdc : deepCopyChain (d.take (s :: cr).length) = deepCopyChain (s :: cr) :=
      deepCopy_eq_of_skeleton_eq _ _ hni hskel2
    subst hco
    refine ⟨hlen, hdc, fun m => toListOut_of_dcEq ?_ ?_ hdc m i₂⟩
    · intro hnil
      rw [hnil] at hlen
      simp at hlen
    · exact fun hx => List.noConfusion hx

theorem rerun_independence_witness :
    (⟨[Stage.Take 0 1]⟩ : Composer Int).chain.length
      = ([Stage.Take 1 1] : List (Stage Int)).length ∧
    deepCopyChain (⟨[Stage.Take 0 1]⟩ : Composer Int).chain
      = deepCopyChain ([Stage.Take 1 1] : List (Stage Int)) ∧
    ∀ m, toListOutF m (⟨[Stage.Take 0 1]⟩ : Composer Int) [7]
      = toListOutF m (⟨[Stage.Take 1 1]⟩ : Composer Int) [7] :=
  rerun_independence Int [Stage.Take 1 1]
    (by intro s hs; rw [List.mem_singleton] at hs; subst hs; rfl)
    [5, 6] [7] 10 [5] ⟨[Stage.Take 0 1]⟩ (by rfl)

end Pipeline